import Mathlib

/-!
# Verification of the logic-obfuscation tool (`logic_obf.py`)

A shallow embedding of the netlist data model, the key-gate inserter
(`Bench.insert_key_gates`), the fault ranker (`Fault.get_faults`), the
key-size sweep (`get_best_hamming`) and the bench parser (`Bench.from_file`),
together with theorems settling the specification claims.

Conventions of the embedding:
* Python exceptions (IndexError, ValueError, KeyError, NameError) are
  modelled with `Except`/`Option`; an `Except.error` value carries the
  state of the mutated object at the moment the exception was raised.
* The random bit drawn by `random.randrange(2)` per inserted gate is an
  explicit parameter `rand : Nat → Bool` (`true` means `randrange` returned
  `1`, hence gate kind XOR).
* The external HOPE collaborator is out of scope (per the spec); its fault
  report and its per-size hamming result are explicit inputs.
-/

namespace LogicObf

/-- One gate assignment (class `LogicOp`): the `operation` field is the
integer code produced by `LogicOp.bench_to_op`
(AND 0, OR 1, NOT 2, NOR 3, NAND 4, DFF 5, BUF 6, XOR 7, XNOR 8). -/
structure LogicOp where
  assignee : String
  operation : Nat
  operands : List String
deriving DecidableEq, Repr

/-- The `__to_op_dict` lookup of `LogicOp.__init__` applied to the
upper-cased operation string; `none` is Python's KeyError. -/
def bench_to_op (s : String) : Option Nat :=
  let u := String.mk (s.data.map Char.toUpper)
  if u = "AND" then some 0
  else if u = "OR" then some 1
  else if u = "NOT" then some 2
  else if u = "NOR" then some 3
  else if u = "NAND" then some 4
  else if u = "DFF" then some 5
  else if u = "BUF" then some 6
  else if u = "XOR" then some 7
  else if u = "XNOR" then some 8
  else none

/-- The class `Bench`: field order follows `Bench.__init__`;
`changed_signals` and `key` are initialised there to `[]` and `''`. -/
structure Bench where
  name : String
  inputs : List String
  outputs : List String
  signals : List String
  ops : List LogicOp
  includes_dff : Bool
  changed_signals : List String := []
  key : String := ""
deriving DecidableEq, Repr

/-- The fresh internal-signal name `'GA' + str(len(self.signals)) + "gat"`. -/
def gaName (n : Nat) : String := "GA" ++ toString n ++ "gat"

/-- The fresh key-input name `'K' + str(len(self.key)) + "gat"`. -/
def kName (n : Nat) : String := "K" ++ toString n ++ "gat"

/-- Split a character list at every character satisfying `p`, keeping empty
pieces (the semantics of Python's `str.split(c)` with an explicit separator).
Implemented structurally so that it computes inside the kernel. -/
def splitChar (p : Char → Bool) : List Char → List (List Char)
  | [] => [[]]
  | c :: rest =>
      if p c then [] :: splitChar p rest
      else
        match splitChar p rest with
        | [] => [[c]]
        | h :: t => (c :: h) :: t

/-- The lines of a text (Python's `text.split('\n')`). -/
def linesOf (s : String) : List String :=
  (splitChar (fun c => c = '\n') s.data).map String.mk

/-- Split a character list at every (leftmost, non-overlapping) occurrence
of the two-character separator `->`. -/
def splitArrowChars : List Char → List (List Char)
  | [] => [[]]
  | '-' :: '>' :: rest => [] :: splitArrowChars rest
  | c :: rest =>
      match splitArrowChars rest with
      | [] => [[c]]
      | h :: t => (c :: h) :: t

/-- Re-join pieces with the separator `->` (used for the `maxsplit = 1`
behaviour of Python's `split`). -/
def arrowJoin : List (List Char) → List Char
  | [] => []
  | [a] => a
  | a :: rest => a ++ '-' :: '>' :: arrowJoin rest

/-- Python's `wires[i].split("->", 1)`: split at the first `->` only. -/
def splitArrow (s : String) : List String :=
  match splitArrowChars s.data with
  | [] => [s]
  | [a] => [String.mk a]
  | a :: rest => [String.mk a, String.mk (arrowJoin rest)]

/-- Python's `l.index(x)` followed by `l[index] = y`: replace the first
occurrence of `x` by `y`; `none` is the ValueError when `x` is absent. -/
def replaceFirst (x y : String) : List String → Option (List String)
  | [] => none
  | a :: rest =>
      if a = x then some (y :: rest)
      else (replaceFirst x y rest).map (fun l => a :: l)

/-- Total version of `replaceFirst` (used where membership was checked first). -/
def replaceFirstD (x y : String) : List String → List String
  | [] => []
  | a :: rest => if a = x then y :: rest else a :: replaceFirstD x y rest

/-- Case 1 of `insert_key_gates` (a `G37gat->G38gat` candidate): walk the
operation list; every operation whose assignee is `w1` gets the first
occurrence of `w0` in its operands replaced by `ns`; `index_to_insert`
records the first such position.  `Except.error` is the ValueError raised
by `op.operands.index(wire[0])` and carries the list as mutated so far. -/
def case1Go (w0 w1 ns : String) :
    List LogicOp → Nat → Option Nat → Except (List LogicOp) (List LogicOp × Option Nat)
  | [], _, idx => .ok ([], idx)
  | op :: rest, i, idx =>
      if op.assignee = w1 then
        match replaceFirst w0 ns op.operands with
        | none => .error (op :: rest)
        | some l =>
            let op2 : LogicOp := { op with operands := l }
            let idx2 := match idx with
              | none => some i
              | some j => some j
            match case1Go w0 w1 ns rest (i + 1) idx2 with
            | .error tail => .error (op2 :: tail)
            | .ok (tail, fidx) => .ok (op2 :: tail, fidx)
      else
        match case1Go w0 w1 ns rest (i + 1) idx with
        | .error tail => .error (op :: tail)
        | .ok (tail, fidx) => .ok (op :: tail, fidx)

/-- Case 2 of `insert_key_gates` (a bare wire candidate): every operation
containing `w0` among its operands gets the first occurrence replaced by
`ns` and appends `w0` to `changed_signals`; returns the rewritten list,
the appends and `index_to_insert`.  No exception is possible here. -/
def case2Go (w0 ns : String) :
    List LogicOp → Nat → Option Nat → List LogicOp × List String × Option Nat
  | [], _, idx => ([], [], idx)
  | op :: rest, i, idx =>
      if w0 ∈ op.operands then
        let op2 : LogicOp := { op with operands := replaceFirstD w0 ns op.operands }
        let idx2 := match idx with
          | none => some i
          | some j => some j
        let r := case2Go w0 ns rest (i + 1) idx2
        (op2 :: r.1, w0 :: r.2.1, r.2.2)
      else
        let r := case2Go w0 ns rest (i + 1) idx
        (op :: r.1, r.2.1, r.2.2)

/-- The final `if(index_to_insert != -1): self.ops.insert(index_to_insert, new_op)`. -/
def insertAt (idx : Option Nat) (a : LogicOp) (l : List LogicOp) : List LogicOp :=
  match idx with
  | none => l
  | some i => l.insertIdx i a

/-- One iteration of the loop of `Bench.insert_key_gates`, for candidate `w`
with random draw `randBit` (`true` = `randrange(2) == 1` = XOR). -/
def insertOne (b : Bench) (w : String) (randBit : Bool) (stuckAt : Nat) : Except Bench Bench :=
  let wire := splitArrow w
  let w0 := wire.headD ""
  let key_input := kName b.key.length
  let inputs2 := b.inputs ++ [key_input]
  let new_signal := gaName b.signals.length
  let signals2 := b.signals ++ [new_signal]
  let new_gate_op : Nat := if randBit then 7 else 8
  let key2 :=
    if stuckAt = 0 then (if new_gate_op = 7 then b.key ++ "0" else b.key ++ "1")
    else if stuckAt = 1 then (if new_gate_op = 7 then b.key ++ "0" else b.key ++ "1")
    else b.key
  let new_op : LogicOp := ⟨new_signal, new_gate_op, [w0, key_input]⟩
  if 2 ≤ wire.length ∧ w0 ∉ b.changed_signals then
    match case1Go w0 (wire.getD 1 "") new_signal b.ops 0 none with
    | .error opsAtCrash =>
        .error { b with
                 inputs := inputs2, signals := signals2, key := key2, ops := opsAtCrash }
    | .ok (ops2, idx) =>
        .ok { b with
              inputs := inputs2, signals := signals2, key := key2,
              ops := insertAt idx new_op ops2 }
  else
    let r := case2Go w0 new_signal b.ops 0 none
    .ok { b with
          inputs := inputs2, signals := signals2, key := key2,
          changed_signals := b.changed_signals ++ r.2.1,
          ops := insertAt r.2.2 new_op r.1 }

/-- The loop `for i in range(num_keybits)` of `insert_key_gates`; `i` is the
running index into `wires`; `Except.error` carries the bench state at the
moment an exception escapes (IndexError on `wires[i]`, or the Case-1
ValueError). -/
def igGo (stuckAt : Nat) (rand : Nat → Bool) (wires : List String) :
    Nat → Nat → Bench → Except Bench Bench
  | _, 0, b => .ok b
  | i, n + 1, b =>
      match wires.get? i with
      | none => .error b
      | some w =>
          match insertOne b w (rand i) stuckAt with
          | .error b1 => .error b1
          | .ok b1 => igGo stuckAt rand wires (i + 1) n b1

/-- `Bench.insert_key_gates(wires, num_keybits, stuck_at)`.  Note that when
`len(wires) < num_keybits` the Python code only prints to stderr via
`error(...)` and then still runs the loop, so no early return is modelled. -/
def insert_key_gates (b : Bench) (wires : List String) (num_keybits stuck_at : Nat)
    (rand : Nat → Bool) : Except Bench Bench :=
  igGo stuck_at rand wires 0 num_keybits b

/-- Projection used to state concrete facts about successful calls. -/
def okBench : Except Bench Bench → Option Bench
  | .ok b => some b
  | .error _ => none

/-- Projection used to state concrete facts about failing calls. -/
def errBench : Except Bench Bench → Option Bench
  | .ok _ => none
  | .error b => some b

/-! ## Evaluation semantics of a bench netlist

Combinational evaluation: operations are executed in list order, each one
binding its assignee to the value of its gate function on its operands.
(The Python tool delegates this to HOPE; the gate functions below are the
standard bench-format semantics, with DFF/BUF transparent.) -/

/-- A valuation of wire names. -/
abbrev Env := String → Bool

/-- Functional update of a valuation. -/
def updEnv (e : Env) (x : String) (v : Bool) : Env :=
  fun y => if y = x then v else e y

/-- Parity of a list of Booleans. -/
def xorList (l : List Bool) : Bool := l.foldl xor false

/-- Gate semantics by operation code. -/
def evalGate (k : Nat) (vs : List Bool) : Bool :=
  if k = 0 then vs.all id
  else if k = 1 then vs.any id
  else if k = 2 then !(vs.getD 0 false)
  else if k = 3 then !(vs.any id)
  else if k = 4 then !(vs.all id)
  else if k = 5 then vs.getD 0 false
  else if k = 6 then vs.getD 0 false
  else if k = 7 then xorList vs
  else if k = 8 then !(xorList vs)
  else false

/-- Execute one operation. -/
def evalStep (e : Env) (op : LogicOp) : Env :=
  updEnv e op.assignee (evalGate op.operation (op.operands.map e))

/-- Execute a list of operations in order. -/
def evalOps (ops : List LogicOp) (e : Env) : Env :=
  ops.foldl evalStep e

/-- Override the valuation so that key input `kName (start + j)` carries the
bit recorded by key character `bits[j]` (`'1'` ↦ `true`). -/
def setKeys (e : Env) (start : Nat) (bits : List Char) : Env :=
  match bits with
  | [] => e
  | c :: rest => setKeys (updEnv e (kName start) (c = '1')) (start + 1) rest

/-! ## Well-formedness of a netlist (the data-model invariants of the spec) -/

/-- Every operand of every operation is already defined when the operation
executes: it is in `defined` or assigned by an earlier operation. -/
def OrderedFrom (defined : List String) : List LogicOp → Prop
  | [] => True
  | op :: rest => (∀ x ∈ op.operands, x ∈ defined) ∧ OrderedFrom (op.assignee :: defined) rest

instance instDecOrderedFrom : (D : List String) → (l : List LogicOp) → Decidable (OrderedFrom D l)
  | _, [] => .isTrue trivial
  | D, op :: rest =>
      haveI := instDecOrderedFrom (op.assignee :: D) rest
      inferInstanceAs (Decidable (_ ∧ _))

/-- Every name the netlist text mentions: inputs, outputs, assignees, operands. -/
def allNames (b : Bench) : List String :=
  b.inputs ++ b.outputs ++ (b.ops.map (fun op => op.assignee :: op.operands)).flatten

/-- The data-model invariants plus freshness of the generated `GA…gat` /
`K…gat` names: parsed ISCAS benches (`G…gat` wires) satisfy all of these. -/
structure Inv (b : Bench) : Prop where
  nodup : (b.ops.map (fun op => op.assignee)).Nodup
  noInputAssign : ∀ op ∈ b.ops, op.assignee ∉ b.inputs
  ordered : OrderedFrom b.inputs b.ops
  freshGA : ∀ i, b.signals.length ≤ i → gaName i ∉ allNames b
  freshK : ∀ i, b.key.length ≤ i → kName i ∉ allNames b

/-! ## Fault ranker (`Fault.get_faults`), minus the external HOPE call -/

/-- A Python dict from wire names to counts, as an insertion-ordered
association list with unique keys. -/
abbrev FDict := List (String × Int)

/-- `d.get(k)`. -/
def dictGet (d : FDict) (k : String) : Option Int :=
  match d with
  | [] => none
  | (k1, v1) :: rest => if k1 = k then some v1 else dictGet rest k

/-- `d[k] = v`: overwrite in place, else append (insertion order preserved). -/
def dictSet (d : FDict) (k : String) (v : Int) : FDict :=
  match d with
  | [] => [(k, v)]
  | (k1, v1) :: rest => if k1 = k then (k, v) :: rest else (k1, v1) :: dictSet rest k v

/-- The count update of `get_faults`: note the Python truthiness test
`if dict.get(w):` — `None` and `0` both lead to `dict[w] = 1`. -/
def bump (d : FDict) (w : String) : FDict :=
  match dictGet d w with
  | some c => if c ≠ 0 then dictSet d w (c + 1) else dictSet d w 1
  | none => dictSet d w 1

/-- `line.split()`: split on whitespace runs, discarding empty pieces. -/
def pyTokens (line : String) : List String :=
  ((splitChar (fun c => c.isWhitespace) line.data).map String.mk).filter (fun t => t ≠ "")

/-- Process one fault-report line; `none` is the IndexError on
`splitLine[0]` / `splitLine[2]` for too-short lines. -/
def processLine (outputs : List String) (z o : FDict) (line : String) :
    Option (FDict × FDict) :=
  let toks := pyTokens line
  match toks.get? 0 with
  | none => none
  | some t0 =>
      if t0 = "test" then some (z, o)
      else if t0 ∈ outputs then some (z, o)
      else
        match toks.get? 2 with
        | none => none
        | some t2 =>
            if t2 = "*" then
              match toks.get? 1 with
              | none => none
              | some t1 =>
                  if t1 = "/0:" then some (bump z t0, o)
                  else if t1 = "/1:" then some (z, bump o t0)
                  else some (z, o)
            else some (z, o)

/-- The line loop of `get_faults`; scanning stops at the first empty line. -/
def faultLoop (outputs : List String) (z o : FDict) : List String → Option (FDict × FDict)
  | [] => some (z, o)
  | line :: rest =>
      if line = "" then some (z, o)
      else
        match processLine outputs z o line with
        | none => none
        | some r => faultLoop outputs r.1 r.2 rest

/-- Python's stable `sorted(d.items(), key=value, reverse=True)`.  `sorted`
is specified to be a stable sort, and the stable sort of a list by a total
preorder is unique, so the (stable, kernel-computable) insertion sort is
the reference implementation. -/
def sortDesc (d : FDict) : FDict :=
  d.insertionSort (fun a b => b.2 ≤ a.2)

/-- `Fault.get_faults` on the raw fault-report text (the HOPE invocation is
the out-of-scope collaborator): both dicts start as `{ "0": -1 }`. -/
def get_faults (outputs : List String) (faults : String) :
    Option (List String × List String) :=
  match faultLoop outputs [("0", -1)] [("0", -1)] (linesOf faults) with
  | none => none
  | some (z, o) => some ((sortDesc z).map (fun p => p.1), (sortDesc o).map (fun p => p.1))

/-! ## Key-size sweep (`get_best_hamming`)

The external evaluation (`test_hamming`, which writes a scratch bench,
invokes HOPE and parses the response log) is the out-of-scope collaborator;
its result for a candidate size is the explicit input `hres`. -/

/-- The swept candidate sizes `range(math.floor(len(bench.inputs)/2), len(bench.inputs))`. -/
def hammingSweep (numInputs : Nat) : List Nat :=
  List.range' (numInputs / 2) (numInputs - numInputs / 2)

/-- `get_best_hamming`: record `abs(hammingResult - 0.5)` per swept size and
return the sizes sorted by that deviation (Python's stable sort on the
insertion-ordered dict, whose keys were inserted in increasing size order). -/
def get_best_hamming (numInputs : Nat) (hres : Nat → ℚ) : List Nat :=
  let hammings := (hammingSweep numInputs).map (fun k => (k, |hres k - 1/2|))
  (hammings.insertionSort (fun a b => a.2 ≤ b.2)).map (fun p => p.1)

/-! ## Bench parser (`Bench.from_file`), minus the file read -/

/-- `\w` under `re.A`: ASCII letters, digits, underscore. -/
def isWordChar (c : Char) : Bool := c.isAlphanum || c = '_'

/-- `^INPUT\((\w*)\)` on one line (the regexes are MULTILINE-anchored, so
`findall` over the text is per-line matching in order). -/
def matchInput (line : String) : Option String :=
  if "INPUT(".data.isPrefixOf line.data then
    let rest := line.data.drop 6
    match rest.dropWhile isWordChar with
    | ')' :: _ => some (String.mk (rest.takeWhile isWordChar))
    | _ => none
  else none

/-- `^OUTPUT\((\w*)\)` on one line. -/
def matchOutput (line : String) : Option String :=
  if "OUTPUT(".data.isPrefixOf line.data then
    let rest := line.data.drop 7
    match rest.dropWhile isWordChar with
    | ')' :: _ => some (String.mk (rest.takeWhile isWordChar))
    | _ => none
  else none

/-- `^(\w*)\s*=\s*(\w*)\((.*)\)` on one line: the greedy `(.*)` captures up
to the last `)` of the line. -/
def matchOpLine (line : String) : Option (String × String × String) :=
  let cs := line.data
  let w1 := cs.takeWhile isWordChar
  let r1 := (cs.dropWhile isWordChar).dropWhile (fun c => c.isWhitespace)
  match r1 with
  | '=' :: r2 =>
      let r3 := r2.dropWhile (fun c => c.isWhitespace)
      let w2 := r3.takeWhile isWordChar
      match r3.dropWhile isWordChar with
      | '(' :: r4 =>
          if r4.contains ')' then
            let content := ((r4.reverse.dropWhile (fun c => c ≠ ')')).drop 1).reverse
            some (String.mk w1, String.mk w2, String.mk content)
          else none
      | _ => none
  | _ => none

/-- `LogicOp(op_reg[0], op_reg[1], operands.split(','))` with the
whitespace of the operand text removed first; `none` is the KeyError of
`bench_to_op` on an unknown operation name. -/
def mkLogicOp (assignee opStr operandsStr : String) : Option LogicOp :=
  let cleaned := operandsStr.data.filter (fun c => !c.isWhitespace)
  match bench_to_op opStr with
  | none => none
  | some k => some ⟨assignee, k, (splitChar (fun c => c = ',') cleaned).map String.mk⟩

/-- The op-building loop of `from_file`.  `includes_dff` is re-assigned
`False` at the top of every iteration (the variable is only left `True`
when the LAST parsed operation is a DFF); `none` for the empty match list
is the NameError on the never-assigned `includes_dff`. -/
def buildOpsGo (acc : List LogicOp) (flag : Option Bool) :
    List (String × String × String) → Option (List LogicOp × Bool)
  | [] =>
      match flag with
      | none => none
      | some f => some (acc.reverse, f)
  | (a, oS, s) :: rest =>
      match mkLogicOp a oS s with
      | none => none
      | some lop => buildOpsGo (lop :: acc) (some (lop.operation == 5)) rest

/-- `Bench.from_file` on the already-read text (`name` stands for the
`pathlib.PurePath(netlist).stem` of the file path). -/
def from_text (name text : String) : Option Bench :=
  let lines := linesOf text
  let inputs := lines.filterMap matchInput
  let outputs := lines.filterMap matchOutput
  let op_full_match := lines.filterMap matchOpLine
  let signals := (op_full_match.map (fun t => t.1)).filter (fun s => s ∉ outputs)
  match buildOpsGo [] none op_full_match with
  | none => none
  | some (ops, includes_dff) =>
      some ⟨name, inputs, outputs, signals, ops, includes_dff, [], ""⟩

/-! ## Auxiliary definitions used by the theorems -/

/-- `op` neither assigns nor reads the name `y`. -/
def opFresh (y : String) (op : LogicOp) : Prop :=
  op.assignee ≠ y ∧ y ∉ op.operands

/-- Pointwise relation of an operand rewrite: each position is unchanged or
was `w0` and became `ns`. -/
def rwRel (w0 ns a b : String) : Prop :=
  b = a ∨ (a = w0 ∧ b = ns)

/-- `op2` is `op` with some operand occurrences of `w0` replaced by `ns`. -/
def OpRw (w0 ns : String) (op op2 : LogicOp) : Prop :=
  op2.assignee = op.assignee ∧ op2.operation = op.operation ∧
    List.Forall₂ (rwRel w0 ns) op.operands op2.operands

/-- The declarative form of Case 2's rewrite: replace the first occurrence
of `w0` in every operation that contains it. -/
def rewriteFirstAll (w0 ns : String) (l : List LogicOp) : List LogicOp :=
  l.map (fun op =>
    if w0 ∈ op.operands then { op with operands := replaceFirstD w0 ns op.operands } else op)

/-- The rewrite applied by Case 1: replace the first occurrence of `w0` in
every operation whose assignee is `w1`. -/
def rewriteCase1 (w0 w1 ns : String) (l : List LogicOp) : List LogicOp :=
  l.map (fun op =>
    if op.assignee = w1 then { op with operands := replaceFirstD w0 ns op.operands } else op)

/-- Decimal value of a digit character. -/
def decChar (c : Char) : Nat := c.toNat - 48

/-- Decimal decoding of a most-significant-digit-first character list. -/
def decList (acc : Nat) : List Char → Nat
  | [] => acc
  | c :: cs => decList (acc * 10 + decChar c) cs

/-- The lines the fault loop actually scans (it stops at the first empty line). -/
def scannedLines (lines : List String) : List String :=
  lines.takeWhile (fun l => l ≠ "")

/-- The wire counted by one fault-report line at the given polarity marker
(`"/0:"` or `"/1:"`), if any: the line's first token, provided the line is
not a header, does not name an output, and is an undetected (`*`) fault of
that polarity. -/
def countedWire (outputs : List String) (marker : String) (line : String) : Option String :=
  let toks := pyTokens line
  match toks.get? 0 with
  | none => none
  | some t0 =>
      if t0 = "test" then none
      else if t0 ∈ outputs then none
      else if toks.get? 2 = some "*" ∧ toks.get? 1 = some marker then some t0
      else none

/-- All wires counted at a polarity, in report order (with multiplicity). -/
def polWires (outputs : List String) (marker : String) (lines : List String) : List String :=
  (scannedLines lines).filterMap (countedWire outputs marker)

/-- Every line is processable without IndexError: a nonempty token list,
and at least three tokens unless the line is the header or names an output. -/
def LineOk (outputs : List String) (line : String) : Prop :=
  pyTokens line ≠ [] ∧
    ((pyTokens line).headD "" = "test" ∨ (pyTokens line).headD "" ∈ outputs ∨
      3 ≤ (pyTokens line).length)

/-- A line that the loop skips without counting: header or output name. -/
def LineSkip (outputs : List String) (line : String) : Prop :=
  pyTokens line ≠ [] ∧
    ((pyTokens line).headD "" = "test" ∨ (pyTokens line).headD "" ∈ outputs)

instance instDecLineOk (outputs : List String) (line : String) :
    Decidable (LineOk outputs line) := by
  unfold LineOk
  infer_instance

instance instDecLineSkip (outputs : List String) (line : String) :
    Decidable (LineSkip outputs line) := by
  unfold LineSkip
  infer_instance

/-- Fold of the count-update over a list of counted wires. -/
def bumpAll (d : FDict) (ws : List String) : FDict :=
  ws.foldl bump d

/-- One step of first-seen deduplication. -/
def dedupStep (acc : List String) (w : String) : List String :=
  if w ∈ acc then acc else acc ++ [w]

/-- The distinct wires of a counted-wire list in first-seen order: the
insertion order of the Python dict keys. -/
def dedupFirst (ws : List String) : List String :=
  ws.foldl dedupStep []

/-- The ranking list produced for one polarity: the dict (seeded with the
`"0": -1` sentinel) bumped once per counted wire, its items sorted by count
descending (stably), keys extracted. -/
def rankList (ws : List String) : List String :=
  (sortDesc (bumpAll [("0", -1)] ws)).map (fun p => p.1)

/-- The count the ranking sorts by: `-1` for the sentinel key `"0"`, the
number of undetected faults for a real wire. -/
def wireVal (ws : List String) (x : String) : Int :=
  if x = "0" then -1 else ws.count x

/-- What a polarity's ranking list looks like, for a counted-wire list `ws`
not containing a wire literally named `"0"`: it holds exactly the counted
wires plus the sentinel, without duplicates, ordered by descending count
(the sentinel, with count `-1`, can only sit at the end), ties broken by
first appearance, and a strictly larger count always strictly earlier. -/
def RankSpec (ws : List String) : Prop :=
  (∀ x, x ∈ rankList ws ↔ (x = "0" ∨ x ∈ ws)) ∧
  (rankList ws).Nodup ∧
  (rankList ws).Pairwise (fun a b => wireVal ws b ≤ wireVal ws a) ∧
  (rankList ws).Pairwise (fun a b => a = "0" → b = "0") ∧
  (∀ a b, [a, b].Sublist (dedupFirst ws) → ws.count a = ws.count b →
    [a, b].Sublist (rankList ws)) ∧
  (∀ a b, a ∈ rankList ws → b ∈ rankList ws → wireVal ws b < wireVal ws a →
    [a, b].Sublist (rankList ws))

/-- The key string after one iteration of `insert_key_gates` (both the
`stuck_at == 0` and the `stuck_at == 1` branches append `'0'` for XOR and
`'1'` for XNOR; any other value leaves the key unchanged). -/
def pyNewKey (key : String) (g : Bool) (s : Nat) : String :=
  if s = 0 then (if (if g then 7 else 8) = 7 then key ++ "0" else key ++ "1")
  else if s = 1 then (if (if g then 7 else 8) = 7 then key ++ "0" else key ++ "1")
  else key

/-- Case 1 raises no ValueError on `l`: every operation assigned to `w1`
does contain `w0` among its operands. -/
def case1Ok (w0 w1 : String) (l : List LogicOp) : Prop :=
  ∀ op ∈ l, op.assignee = w1 → w0 ∈ op.operands

/-- The defined-name accumulator of `OrderedFrom` after processing `l`. -/
def definedAfter (D : List String) (l : List LogicOp) : List String :=
  l.foldl (fun acc op => op.assignee :: acc) D

/-! ### Concrete netlists used to exercise the theorems -/

/-- The two-input AND netlist `o = AND(a, b)`. -/
def andBench : Bench := ⟨"t", ["a", "b"], ["o"], [], [⟨"o", 0, ["a", "b"]⟩], false, [], ""⟩

/-- `andBench` locked on the edge `a->o` with an XOR key gate. -/
def andBenchLocked : Bench := ⟨"t", ["a", "b", "K0gat"], ["o"], ["GA0gat"],
  [⟨"GA0gat", 7, ["a", "K0gat"]⟩, ⟨"o", 0, ["GA0gat", "b"]⟩], false, [], "0"⟩

/-- `andBench` after a candidate with no consumer (`x`) was processed: the
key gate was dropped, yet the key bit, key input and signal all remain. -/
def andBenchDropped : Bench := ⟨"t", ["a", "b", "K0gat"], ["o"], ["GA0gat"],
  [⟨"o", 0, ["a", "b"]⟩], false, [], "0"⟩

/-- The state of `andBench` at the IndexError raised by
`insert_key_gates(["a"], 2, 0)`: one gate was inserted before the crash. -/
def andBenchCrash : Bench := ⟨"t", ["a", "b", "K0gat"], ["o"], ["GA0gat"],
  [⟨"GA0gat", 7, ["a", "K0gat"]⟩, ⟨"o", 0, ["GA0gat", "b"]⟩], false, ["a"], "0"⟩

/-- A netlist whose single operation reads the same wire twice. -/
def dupBench : Bench := ⟨"t", ["a"], ["B"], [], [⟨"B", 0, ["a", "a"]⟩], false, [], ""⟩

/-- `dupBench` after inserting one key gate for candidate `a`: only the
first operand occurrence of `a` was rewired. -/
def dupBenchLocked : Bench := ⟨"t", ["a", "K0gat"], ["B"], ["GA0gat"],
  [⟨"GA0gat", 7, ["a", "K0gat"]⟩, ⟨"B", 0, ["GA0gat", "a"]⟩], false, ["a"], "0"⟩

/-- A netlist used to trigger the Case-1 ValueError: the consumer `B`
exists but does not read the producer named in the edge `A->B`. -/
def bogusEdgeBench : Bench := ⟨"t", ["c", "d"], [], ["B"], [⟨"B", 0, ["c", "d"]⟩], false, [], ""⟩

/-- The state of `bogusEdgeBench` at the ValueError of
`insert_key_gates(["A->B", "E"], 2, 0)`: appends of the first iteration
persist, the second iteration never ran. -/
def bogusEdgeCrash : Bench := ⟨"t", ["c", "d", "K0gat"], [], ["B", "GA1gat"],
  [⟨"B", 0, ["c", "d"]⟩], false, [], "0"⟩

/-! ## Basic lemmas about valuations and evaluation -/

lemma updEnv_self (e : Env) (x : String) (v : Bool) : updEnv e x v x = v := by
  simp [updEnv]

lemma updEnv_ne (e : Env) {x y : String} (v : Bool) (h : y ≠ x) : updEnv e x v y = e y := by
  simp [updEnv, h]

lemma updEnv_comm (e : Env) {x y : String} (u v : Bool) (h : x ≠ y) :
    updEnv (updEnv e x u) y v = updEnv (updEnv e y v) x u := by
  funext z
  by_cases hzy : z = y <;> by_cases hzx : z = x <;>
    simp_all [updEnv]

lemma evalOps_append (l1 l2 : List LogicOp) (e : Env) :
    evalOps (l1 ++ l2) e = evalOps l2 (evalOps l1 e) := by
  simp [evalOps, List.foldl_append]

lemma evalOps_cons (op : LogicOp) (l : List LogicOp) (e : Env) :
    evalOps (op :: l) e = evalOps l (evalStep e op) := rfl

lemma map_env_congr {l : List String} {e1 e2 : Env} (h : ∀ z ∈ l, e1 z = e2 z) :
    l.map e1 = l.map e2 := by
  induction l with
  | nil => rfl
  | cons a t ih =>
      simp only [List.map_cons]
      refine congrArg₂ _ (h a (by simp)) (ih fun z hz => h z (by simp [hz]))

lemma evalStep_fresh {y : String} {op : LogicOp} (h : opFresh y op) (e : Env) (v : Bool) :
    evalStep (updEnv e y v) op = updEnv (evalStep e op) y v := by
  have hmap : op.operands.map (updEnv e y v) = op.operands.map e :=
    map_env_congr fun z hz => updEnv_ne e v (fun hzy => h.2 (hzy ▸ hz))
  simp only [evalStep, hmap]
  exact updEnv_comm e _ _ (fun hxy => h.1 hxy.symm)

lemma evalOps_fresh {y : String} {l : List LogicOp} (h : ∀ op ∈ l, opFresh y op)
    (e : Env) (v : Bool) : evalOps l (updEnv e y v) = updEnv (evalOps l e) y v := by
  induction l generalizing e with
  | nil => rfl
  | cons op t ih =>
      rw [evalOps_cons, evalOps_cons, evalStep_fresh (h op (by simp)) e v,
        ih (fun o ho => h o (by simp [ho]))]

lemma map_eq_of_rw {w0 ns : String} {l l2 : List String} {E e : Env}
    (h : List.Forall₂ (rwRel w0 ns) l l2)
    (hvals : ∀ a b, a ∈ l → rwRel w0 ns a b → E b = e a) :
    l2.map E = l.map e := by
  induction h with
  | nil => rfl
  | cons hab hrest ih =>
      simp only [List.map_cons]
      refine congrArg₂ _ (hvals _ _ (by simp) hab) (ih fun a b ha hr => hvals a b (by simp [ha]) hr)

/-- Evaluating the rewritten suffix under the extended valuation (key input
bound to `kb`, new signal bound to the value of `w0`) agrees with evaluating
the original suffix, up to the two new names. -/
lemma evalOps_rw {w0 ns ki : String} {kb : Bool}
    (hw0ns : w0 ≠ ns) (hw0ki : w0 ≠ ki) (hnski : ns ≠ ki) :
    ∀ {suf suf2 : List LogicOp}, List.Forall₂ (OpRw w0 ns) suf suf2 →
      (∀ op ∈ suf, opFresh ns op ∧ opFresh ki op ∧ op.assignee ≠ w0) →
      ∀ e : Env,
        evalOps suf2 (updEnv (updEnv e ki kb) ns (e w0)) =
          updEnv (updEnv (evalOps suf e) ki kb) ns (e w0) := by
  intro suf suf2 hrw
  induction hrw with
  | nil => intro _ _; rfl
  | @cons op op2 t t2 hop hrest ih =>
      intro hfresh e
      obtain ⟨hns, hki, hw0⟩ := hfresh op (by simp)
      have hmap : op2.operands.map (updEnv (updEnv e ki kb) ns (e w0)) = op.operands.map e := by
        refine map_eq_of_rw hop.2.2 ?_
        intro a b ha hr
        rcases hr with hba | ⟨haw, hbn⟩
        · rw [hba]
          have hans : a ≠ ns := fun h => hns.2 (h ▸ ha)
          have haki : a ≠ ki := fun h => hki.2 (h ▸ ha)
          rw [updEnv_ne _ _ hans, updEnv_ne _ _ haki]
        · subst haw; subst hbn
          exact updEnv_self _ _ _
      rw [evalOps_cons, evalOps_cons]
      have hstep : evalStep (updEnv (updEnv e ki kb) ns (e w0)) op2 =
          updEnv (updEnv (evalStep e op) ki kb) ns (e w0) := by
        simp only [evalStep, hmap, hop.1, hop.2.1]
        rw [updEnv_comm _ _ _ (Ne.symm hns.1), updEnv_comm _ _ _ (Ne.symm hki.1)]
      rw [hstep]
      have hew0 : (evalStep e op) w0 = e w0 :=
        updEnv_ne _ _ (fun h => hw0 h.symm)
      rw [← hew0]
      exact ih (fun o ho => hfresh o (by simp [ho])) (evalStep e op)

/-! ## Injectivity of the generated names -/

lemma string_ext {s t : String} (h : s.data = t.data) : s = t := by
  cases s; cases t; exact congrArg String.mk h

lemma decList_append (acc : Nat) (xs ys : List Char) :
    decList acc (xs ++ ys) = decList (decList acc xs) ys := by
  induction xs generalizing acc with
  | nil => rfl
  | cons c cs ih =>
      rw [List.cons_append]
      rw [show decList acc (c :: (cs ++ ys)) = decList (acc * 10 + decChar c) (cs ++ ys) from rfl]
      rw [show decList acc (c :: cs) = decList (acc * 10 + decChar c) cs from rfl]
      exact ih _

lemma decChar_digitChar : ∀ {r : Nat}, r < 10 → decChar (Nat.digitChar r) = r := by
  have hall : ∀ r : Nat, r < 10 → decChar (Nat.digitChar r) = r := by decide
  intro r hr
  exact hall r hr

lemma toDigitsCore_append (b : Nat) (fuel : Nat) :
    ∀ (n : Nat) (ds : List Char),
      Nat.toDigitsCore b fuel n ds = Nat.toDigitsCore b fuel n [] ++ ds := by
  induction fuel with
  | zero => intro n ds; rfl
  | succ f ih =>
      intro n ds
      simp only [Nat.toDigitsCore]
      by_cases h : n / b = 0
      · simp [h]
      · simp only [if_neg h]
        rw [ih (n / b) (Nat.digitChar (n % b) :: ds), ih (n / b) [Nat.digitChar (n % b)]]
        simp

lemma decList_toDigitsCore (n : Nat) : ∀ fuel, n < fuel →
    decList 0 (Nat.toDigitsCore 10 fuel n []) = n := by
  induction n using Nat.strong_induction_on with
  | _ n ih =>
      intro fuel hf
      match fuel, hf with
      | f + 1, hf =>
        simp only [Nat.toDigitsCore]
        by_cases h : n / 10 = 0
        · rw [if_pos h]
          rw [show decList 0 [Nat.digitChar (n % 10)]
              = 0 * 10 + decChar (Nat.digitChar (n % 10)) from rfl]
          rw [decChar_digitChar (Nat.mod_lt n (by norm_num))]
          omega
        · have hq : n / 10 < n := Nat.div_lt_self (by omega) (by norm_num)
          have hqf : n / 10 < f := by omega
          rw [if_neg h]
          rw [toDigitsCore_append 10 f (n / 10) [Nat.digitChar (n % 10)],
            decList_append, ih (n / 10) hq f hqf]
          rw [show decList (n / 10) [Nat.digitChar (n % 10)]
              = (n / 10) * 10 + decChar (Nat.digitChar (n % 10)) from rfl]
          rw [decChar_digitChar (Nat.mod_lt n (by norm_num))]
          omega

lemma natRepr_inj {m n : Nat} (h : Nat.repr m = Nat.repr n) : m = n := by
  have hd : Nat.toDigitsCore 10 (m + 1) m [] = Nat.toDigitsCore 10 (n + 1) n [] := by
    have := congrArg String.data h
    simpa [Nat.repr, Nat.toDigits, List.asString] using this
  have h1 := decList_toDigitsCore m (m + 1) (Nat.lt_succ_self m)
  have h2 := decList_toDigitsCore n (n + 1) (Nat.lt_succ_self n)
  rw [← h1, ← h2, hd]

lemma gaName_data (i : Nat) :
    (gaName i).data = 'G' :: 'A' :: ((toString i).data ++ ['g', 'a', 't']) := by
  have : (gaName i).data = "GA".data ++ (toString i).data ++ "gat".data := by
    simp [gaName, String.data_append]
  simpa using this

lemma kName_data (i : Nat) :
    (kName i).data = 'K' :: ((toString i).data ++ ['g', 'a', 't']) := by
  have : (kName i).data = "K".data ++ (toString i).data ++ "gat".data := by
    simp [kName, String.data_append]
  simpa using this

lemma gaName_inj {i j : Nat} (h : gaName i = gaName j) : i = j := by
  have hd := congrArg String.data h
  rw [gaName_data, gaName_data] at hd
  simp only [List.cons.injEq, true_and] at hd
  have : (toString i).data = (toString j).data := List.append_cancel_right hd
  exact natRepr_inj (string_ext this)

lemma kName_inj {i j : Nat} (h : kName i = kName j) : i = j := by
  have hd := congrArg String.data h
  rw [kName_data, kName_data] at hd
  simp only [List.cons.injEq, true_and] at hd
  have : (toString i).data = (toString j).data := List.append_cancel_right hd
  exact natRepr_inj (string_ext this)

lemma gaName_ne_kName (i j : Nat) : gaName i ≠ kName j := by
  intro h
  have hd := congrArg String.data h
  rw [gaName_data, kName_data] at hd
  simp at hd

lemma gaName_head (i : Nat) : (gaName i).data.head? = some 'G' := by
  rw [gaName_data]; rfl

lemma kName_head (i : Nat) : (kName i).data.head? = some 'K' := by
  rw [kName_data]; rfl

lemma notMem_of_head {y : String} {l : List String}
    (h : ∀ x ∈ l, x.data.head? ≠ y.data.head?) : y ∉ l :=
  fun hy => h y hy rfl

/-! ## Structure of the Case 1 and Case 2 scans -/

lemma rwRel_refl (w0 ns a : String) : rwRel w0 ns a a := Or.inl rfl

lemma forall₂_rw_refl (w0 ns : String) (l : List String) :
    List.Forall₂ (rwRel w0 ns) l l :=
  List.forall₂_same.mpr fun a _ => rwRel_refl w0 ns a

lemma replaceFirstD_rw (w0 ns : String) :
    ∀ l : List String, List.Forall₂ (rwRel w0 ns) l (replaceFirstD w0 ns l)
  | [] => .nil
  | a :: rest => by
      by_cases h : a = w0
      · rw [show replaceFirstD w0 ns (a :: rest) = ns :: rest by simp [replaceFirstD, h]]
        exact .cons (Or.inr ⟨h, rfl⟩) (forall₂_rw_refl w0 ns rest)
      · rw [show replaceFirstD w0 ns (a :: rest) = a :: replaceFirstD w0 ns rest by
          simp [replaceFirstD, h]]
        exact .cons (rwRel_refl w0 ns a) (replaceFirstD_rw w0 ns rest)

lemma opRw_refl (w0 ns : String) (op : LogicOp) : OpRw w0 ns op op :=
  ⟨rfl, rfl, forall₂_rw_refl w0 ns op.operands⟩

lemma opRw_replace (w0 ns : String) (op : LogicOp) :
    OpRw w0 ns op { op with operands := replaceFirstD w0 ns op.operands } :=
  ⟨rfl, rfl, replaceFirstD_rw w0 ns op.operands⟩

lemma rewriteFirstAll_rw (w0 ns : String) :
    ∀ l : List LogicOp, List.Forall₂ (OpRw w0 ns) l (rewriteFirstAll w0 ns l)
  | [] => .nil
  | op :: rest => by
      rw [rewriteFirstAll, List.map_cons]
      refine .cons ?_ (rewriteFirstAll_rw w0 ns rest)
      by_cases h : w0 ∈ op.operands
      · rw [if_pos h]; exact opRw_replace w0 ns op
      · rw [if_neg h]; exact opRw_refl w0 ns op

lemma rewriteCase1_rw (w0 w1 ns : String) :
    ∀ l : List LogicOp, List.Forall₂ (OpRw w0 ns) l (rewriteCase1 w0 w1 ns l)
  | [] => .nil
  | op :: rest => by
      rw [rewriteCase1, List.map_cons]
      refine .cons ?_ (rewriteCase1_rw w0 w1 ns rest)
      by_cases h : op.assignee = w1
      · rw [if_pos h]; exact opRw_replace w0 ns op
      · rw [if_neg h]; exact opRw_refl w0 ns op

lemma rewriteFirstAll_nomatch (w0 ns : String) {l : List LogicOp}
    (h : ∀ op ∈ l, w0 ∉ op.operands) : rewriteFirstAll w0 ns l = l := by
  induction l with
  | nil => rfl
  | cons op rest ih =>
      rw [rewriteFirstAll, List.map_cons, if_neg (h op (by simp))]
      have : rewriteFirstAll w0 ns rest = rest := ih fun o ho => h o (by simp [ho])
      rw [rewriteFirstAll] at this
      rw [this]

lemma case2Go_some (w0 ns : String) :
    ∀ (l : List LogicOp) (i j : Nat),
      case2Go w0 ns l i (some j) =
        (rewriteFirstAll w0 ns l,
         List.replicate (l.countP (fun op => decide (w0 ∈ op.operands))) w0, some j)
  | [], _, _ => rfl
  | op :: rest, i, j => by
      by_cases h : w0 ∈ op.operands
      · rw [show case2Go w0 ns (op :: rest) i (some j)
            = (({ op with operands := replaceFirstD w0 ns op.operands } : LogicOp)
                :: (case2Go w0 ns rest (i+1) (some j)).1,
               w0 :: (case2Go w0 ns rest (i+1) (some j)).2.1,
               (case2Go w0 ns rest (i+1) (some j)).2.2) by
          simp [case2Go, h]]
        rw [case2Go_some w0 ns rest (i+1) j]
        simp [rewriteFirstAll, h, List.countP_cons, List.replicate_succ]
      · rw [show case2Go w0 ns (op :: rest) i (some j)
            = (op :: (case2Go w0 ns rest (i+1) (some j)).1,
               (case2Go w0 ns rest (i+1) (some j)).2.1,
               (case2Go w0 ns rest (i+1) (some j)).2.2) by
          simp [case2Go, h]]
        rw [case2Go_some w0 ns rest (i+1) j]
        simp [rewriteFirstAll, h, List.countP_cons]

lemma case2Go_nomatch (w0 ns : String) {l : List LogicOp}
    (h : ∀ op ∈ l, w0 ∉ op.operands) : ∀ i, case2Go w0 ns l i none = (l, [], none) := by
  induction l with
  | nil => intro i; rfl
  | cons op rest ih =>
      intro i
      rw [show case2Go w0 ns (op :: rest) i none
          = (op :: (case2Go w0 ns rest (i+1) none).1,
             (case2Go w0 ns rest (i+1) none).2.1,
             (case2Go w0 ns rest (i+1) none).2.2) by
        simp [case2Go, h op (by simp)]]
      rw [ih (fun o ho => h o (by simp [ho])) (i+1)]

lemma case2Go_split (w0 ns : String) (hd : LogicOp) (tl : List LogicOp)
    (hhd : w0 ∈ hd.operands) :
    ∀ (pre : List LogicOp), (∀ op ∈ pre, w0 ∉ op.operands) → ∀ i,
      case2Go w0 ns (pre ++ hd :: tl) i none =
        (pre ++ rewriteFirstAll w0 ns (hd :: tl),
         List.replicate ((hd :: tl).countP (fun op => decide (w0 ∈ op.operands))) w0,
         some (i + pre.length))
  | [], _, i => by
      rw [List.nil_append,
        show case2Go w0 ns (hd :: tl) i none
          = (({ hd with operands := replaceFirstD w0 ns hd.operands } : LogicOp)
              :: (case2Go w0 ns tl (i+1) (some i)).1,
             w0 :: (case2Go w0 ns tl (i+1) (some i)).2.1,
             (case2Go w0 ns tl (i+1) (some i)).2.2) by
          simp [case2Go, hhd]]
      rw [case2Go_some w0 ns tl (i+1) i]
      simp [rewriteFirstAll, hhd, List.countP_cons, List.replicate_succ]
  | op :: pre, hpre, i => by
      have hop : w0 ∉ op.operands := hpre op (by simp)
      rw [List.cons_append,
        show case2Go w0 ns (op :: (pre ++ hd :: tl)) i none
          = (op :: (case2Go w0 ns (pre ++ hd :: tl) (i+1) none).1,
             (case2Go w0 ns (pre ++ hd :: tl) (i+1) none).2.1,
             (case2Go w0 ns (pre ++ hd :: tl) (i+1) none).2.2) by
          simp [case2Go, hop]]
      rw [case2Go_split w0 ns hd tl hhd pre (fun o ho => hpre o (by simp [ho])) (i+1)]
      simp only [List.cons_append, List.length_cons]
      rw [show i + 1 + pre.length = i + (pre.length + 1) by omega]

lemma replaceFirst_some_mem {x y : String} :
    ∀ {l l2 : List String}, replaceFirst x y l = some l2 → x ∈ l := by
  intro l
  induction l with
  | nil => intro l2 h; simp [replaceFirst] at h
  | cons a rest ih =>
      intro l2 h
      by_cases hax : a = x
      · simp [hax]
      · rw [replaceFirst, if_neg hax] at h
        match hr : replaceFirst x y rest with
        | none => rw [hr] at h; simp at h
        | some l3 => exact List.mem_cons_of_mem a (ih hr)

lemma replaceFirst_eq_of_mem {x y : String} :
    ∀ {l : List String}, x ∈ l → replaceFirst x y l = some (replaceFirstD x y l) := by
  intro l
  induction l with
  | nil => intro h; simp at h
  | cons a rest ih =>
      intro h
      by_cases hax : a = x
      · simp [replaceFirst, replaceFirstD, hax]
      · have : x ∈ rest := by
          rcases List.mem_cons.mp h with h1 | h1
          · exact absurd h1.symm hax
          · exact h1
        simp [replaceFirst, replaceFirstD, hax, ih this]

lemma case1Go_cons_true (w0 w1 ns : String) (op : LogicOp) (rest : List LogicOp) (i : Nat)
    (idx idx2 : Option Nat) (hidx : (match idx with | none => some i | some j => some j) = idx2)
    (ha : op.assignee = w1) (l2 : List String) (hr : replaceFirst w0 ns op.operands = some l2) :
    case1Go w0 w1 ns (op :: rest) i idx =
      match case1Go w0 w1 ns rest (i + 1) idx2 with
      | .error tail => .error (({ op with operands := l2 } : LogicOp) :: tail)
      | .ok (tail, fidx) => .ok (({ op with operands := l2 } : LogicOp) :: tail, fidx) := by
  cases idx with
  | none =>
      have h2 : idx2 = some i := hidx.symm
      subst h2
      simp [case1Go, ha, hr]
  | some j =>
      have h2 : idx2 = some j := hidx.symm
      subst h2
      simp [case1Go, ha, hr]

lemma case1Go_cons_false (w0 w1 ns : String) (op : LogicOp) (rest : List LogicOp) (i : Nat)
    (idx : Option Nat) (ha : ¬ op.assignee = w1) :
    case1Go w0 w1 ns (op :: rest) i idx =
      match case1Go w0 w1 ns rest (i + 1) idx with
      | .error tail => .error (op :: tail)
      | .ok (tail, fidx) => .ok (op :: tail, fidx) := by
  simp [case1Go, ha]

lemma case1Go_ok_cond (w0 w1 ns : String) :
    ∀ {l : List LogicOp} {i : Nat} {idx : Option Nat} {r},
      case1Go w0 w1 ns l i idx = .ok r → case1Ok w0 w1 l := by
  intro l
  induction l with
  | nil => intro i idx r _ op hop; simp at hop
  | cons op rest ih =>
      intro i idx r h
      by_cases ha : op.assignee = w1
      · match hr : replaceFirst w0 ns op.operands with
        | none =>
            have he : case1Go w0 w1 ns (op :: rest) i idx = .error (op :: rest) := by
              simp [case1Go, ha, hr]
            rw [he] at h
            exact absurd h (by simp)
        | some l2 =>
            have hmem := replaceFirst_some_mem hr
            obtain ⟨idx2, hidx⟩ :
                ∃ v, (match idx with | none => some i | some j => some j) = v := ⟨_, rfl⟩
            rw [case1Go_cons_true w0 w1 ns op rest i idx idx2 hidx ha l2 hr] at h
            match hrec : case1Go w0 w1 ns rest (i + 1) idx2 with
            | .error t =>
                rw [hrec] at h
                exact absurd h (by simp)
            | .ok rr =>
                intro o ho hasg
                rcases List.mem_cons.mp ho with rfl | ho2
                · exact hmem
                · exact ih hrec o ho2 hasg
      · rw [case1Go_cons_false w0 w1 ns op rest i idx ha] at h
        match hrec : case1Go w0 w1 ns rest (i + 1) idx with
        | .error t =>
            rw [hrec] at h
            exact absurd h (by simp)
        | .ok rr =>
            intro o ho hasg
            rcases List.mem_cons.mp ho with rfl | ho2
            · exact absurd hasg ha
            · exact ih hrec o ho2 hasg

lemma case1Go_some (w0 w1 ns : String) :
    ∀ (l : List LogicOp), case1Ok w0 w1 l → ∀ (i j : Nat),
      case1Go w0 w1 ns l i (some j) = .ok (rewriteCase1 w0 w1 ns l, some j)
  | [], _, _, _ => rfl
  | op :: rest, hok, i, j => by
      have hrest : case1Ok w0 w1 rest := fun o ho => hok o (by simp [ho])
      by_cases ha : op.assignee = w1
      · have hmem : w0 ∈ op.operands := hok op (by simp) ha
        rw [case1Go_cons_true w0 w1 ns op rest i (some j) (some j) rfl ha _
            (replaceFirst_eq_of_mem hmem)]
        rw [case1Go_some w0 w1 ns rest hrest (i + 1) j]
        simp [rewriteCase1, ha]
      · rw [case1Go_cons_false w0 w1 ns op rest i (some j) ha]
        rw [case1Go_some w0 w1 ns rest hrest (i + 1) j]
        simp [rewriteCase1, ha]

lemma case1Go_nomatch (w0 w1 ns : String) {l : List LogicOp}
    (h : ∀ op ∈ l, op.assignee ≠ w1) : ∀ i, case1Go w0 w1 ns l i none = .ok (l, none) := by
  induction l with
  | nil => intro i; rfl
  | cons op rest ih =>
      intro i
      rw [case1Go_cons_false w0 w1 ns op rest i none (h op (by simp))]
      rw [ih (fun o ho => h o (by simp [ho])) (i + 1)]

lemma case1Go_split (w0 w1 ns : String) (hd : LogicOp) (tl : List LogicOp)
    (hhd : hd.assignee = w1) (hok : case1Ok w0 w1 (hd :: tl)) :
    ∀ (pre : List LogicOp), (∀ op ∈ pre, op.assignee ≠ w1) → ∀ i,
      case1Go w0 w1 ns (pre ++ hd :: tl) i none =
        .ok (pre ++ rewriteCase1 w0 w1 ns (hd :: tl), some (i + pre.length))
  | [], _, i => by
      rw [List.nil_append]
      have hmem : w0 ∈ hd.operands := hok hd (by simp) hhd
      rw [case1Go_cons_true w0 w1 ns hd tl i none (some i) rfl hhd _
          (replaceFirst_eq_of_mem hmem)]
      rw [case1Go_some w0 w1 ns tl (fun o ho => hok o (by simp [ho])) (i + 1) i]
      simp [rewriteCase1, hhd]
  | op :: pre, hpre, i => by
      rw [List.cons_append]
      rw [case1Go_cons_false w0 w1 ns op _ i none (hpre op (by simp))]
      rw [case1Go_split w0 w1 ns hd tl hhd hok pre (fun o ho => hpre o (by simp [ho])) (i + 1)]
      simp only [List.cons_append, List.length_cons]
      rw [show i + 1 + pre.length = i + (pre.length + 1) by omega]

/-- The generic split of a list at the first element satisfying `p`. -/
lemma exists_first_split {α : Type} (p : α → Prop) [DecidablePred p] :
    ∀ l : List α, (∀ x ∈ l, ¬ p x) ∨
      ∃ pre hd tl, l = pre ++ hd :: tl ∧ (∀ x ∈ pre, ¬ p x) ∧ p hd
  | [] => Or.inl (by simp)
  | x :: rest => by
      by_cases hx : p x
      · exact Or.inr ⟨[], x, rest, by simp, by simp, hx⟩
      · rcases exists_first_split p rest with h | ⟨pre, hd, tl, heq, hpre, hhd⟩
        · refine Or.inl ?_
          intro y hy
          rcases List.mem_cons.mp hy with rfl | hy2
          · exact hx
          · exact h y hy2
        · refine Or.inr ⟨x :: pre, hd, tl, by simp [heq], ?_, hhd⟩
          intro y hy
          rcases List.mem_cons.mp hy with rfl | hy2
          · exact hx
          · exact hpre y hy2

lemma insertIdx_decomp {α : Type} (a : α) :
    ∀ (l : List α) (k : Nat), k ≤ l.length →
      l.insertIdx k a = l.take k ++ a :: l.drop k
  | l, 0, _ => by simp
  | [], k + 1, h => by simp at h
  | x :: l, k + 1, h => by
      rw [List.insertIdx_succ_cons]
      rw [insertIdx_decomp a l k (by simpa using h)]
      simp

/-! ## Well-ordering lemmas -/

lemma orderedFrom_mono : ∀ {l : List LogicOp} {D1 D2 : List String},
    (∀ x ∈ D1, x ∈ D2) → OrderedFrom D1 l → OrderedFrom D2 l
  | [], _, _, _, _ => trivial
  | op :: rest, D1, D2, hsub, h => by
      have h1 : (∀ x ∈ op.operands, x ∈ D1) ∧ OrderedFrom (op.assignee :: D1) rest := h
      show (∀ x ∈ op.operands, x ∈ D2) ∧ OrderedFrom (op.assignee :: D2) rest
      refine ⟨fun x hx => hsub x (h1.1 x hx), ?_⟩
      refine orderedFrom_mono ?_ h1.2
      intro x hx
      rcases List.mem_cons.mp hx with rfl | hx2
      · simp
      · simp [hsub x hx2]

lemma orderedFrom_append {l1 : List LogicOp} : ∀ {l2 : List LogicOp} {D : List String},
    OrderedFrom D (l1 ++ l2) ↔ (OrderedFrom D l1 ∧ OrderedFrom (definedAfter D l1) l2) := by
  induction l1 with
  | nil =>
      intro l2 D
      have h1 : OrderedFrom D ([] : List LogicOp) := trivial
      simp only [List.nil_append]
      exact ⟨fun h => ⟨h1, h⟩, fun h => h.2⟩
  | cons op l1 ih =>
      intro l2 D
      constructor
      · intro h
        have h2 : (∀ x ∈ op.operands, x ∈ D) ∧ OrderedFrom (op.assignee :: D) (l1 ++ l2) := h
        obtain ⟨h21, h22⟩ := ih.mp h2.2
        exact ⟨⟨h2.1, h21⟩, h22⟩
      · intro h
        have h1 : (∀ x ∈ op.operands, x ∈ D) ∧ OrderedFrom (op.assignee :: D) l1 := h.1
        show (∀ x ∈ op.operands, x ∈ D) ∧ OrderedFrom (op.assignee :: D) (l1 ++ l2)
        exact ⟨h1.1, ih.mpr ⟨h1.2, h.2⟩⟩

lemma mem_definedAfter : ∀ {l : List LogicOp} {D : List String} {x : String},
    x ∈ definedAfter D l ↔ (x ∈ D ∨ x ∈ l.map (fun op => op.assignee)) := by
  intro l
  induction l with
  | nil => intro D x; simp [definedAfter]
  | cons op rest ih =>
      intro D x
      rw [show definedAfter D (op :: rest) = definedAfter (op.assignee :: D) rest from rfl, ih]
      simp [List.mem_cons]
      tauto

lemma forall₂_mem_right {α β : Type} {r : α → β → Prop} :
    ∀ {l : List α} {l2 : List β}, List.Forall₂ r l l2 → ∀ b ∈ l2, ∃ a ∈ l, r a b := by
  intro l l2 h
  induction h with
  | nil => simp
  | cons hab hrest ih =>
      intro b hb
      rcases List.mem_cons.mp hb with rfl | hb2
      · exact ⟨_, by simp, hab⟩
      · obtain ⟨a, ha, har⟩ := ih b hb2
        exact ⟨a, by simp [ha], har⟩

lemma forall₂_assignee_map {w0 ns : String} : ∀ {l l2 : List LogicOp},
    List.Forall₂ (OpRw w0 ns) l l2 →
    l2.map (fun op => op.assignee) = l.map (fun op => op.assignee) := by
  intro l l2 h
  induction h with
  | nil => rfl
  | cons hab hrest ih => simp [ih, hab.1]

lemma forall₂_opFresh_right {w0 ns y : String} (hyns : y ≠ ns) :
    ∀ {l l2 : List LogicOp}, List.Forall₂ (OpRw w0 ns) l l2 →
      (∀ op ∈ l, opFresh y op) → ∀ op2 ∈ l2, opFresh y op2 := by
  intro l l2 h hfresh op2 hop2
  obtain ⟨op, hop, hrw⟩ := forall₂_mem_right h op2 hop2
  refine ⟨hrw.1 ▸ (hfresh op hop).1, ?_⟩
  intro hy
  obtain ⟨a, ha, har⟩ := forall₂_mem_right hrw.2.2 y hy
  rcases har with hba | ⟨haw, hbn⟩
  · exact (hfresh op hop).2 (hba ▸ ha)
  · exact hyns hbn

lemma orderedFrom_rw {w0 ns : String} : ∀ {suf suf2 : List LogicOp},
    List.Forall₂ (OpRw w0 ns) suf suf2 → ∀ {D : List String}, ns ∈ D →
      OrderedFrom D suf → OrderedFrom D suf2 := by
  intro suf suf2 h
  induction h with
  | nil => intro D _ _; trivial
  | @cons op op2 t t2 hop hrest ih =>
      intro D hns hord
      have hord1 : (∀ x ∈ op.operands, x ∈ D) ∧ OrderedFrom (op.assignee :: D) t := hord
      show (∀ x ∈ op2.operands, x ∈ D) ∧ OrderedFrom (op2.assignee :: D) t2
      constructor
      · intro x hx
        obtain ⟨a, ha, har⟩ := forall₂_mem_right hop.2.2 x hx
        rcases har with hba | ⟨haw, hbn⟩
        · rw [hba]; exact hord1.1 a ha
        · rw [hbn]; exact hns
      · rw [hop.1]
        exact ih (by simp [hns]) hord1.2

/-! ## Shape of a successful insertion step -/

lemma pyNewKey_eq (key : String) (g : Bool) {s : Nat} (hs : s = 0 ∨ s = 1) :
    pyNewKey key g s = key ++ (if g then "0" else "1") := by
  rcases hs with rfl | rfl <;> cases g <;> simp [pyNewKey]

lemma insertOne_case1_eq (b : Bench) (w : String) (g : Bool) (s : Nat)
    (hc : 2 ≤ (splitArrow w).length ∧ (splitArrow w).headD "" ∉ b.changed_signals) :
    insertOne b w g s =
      (match case1Go ((splitArrow w).headD "") ((splitArrow w).getD 1 "")
          (gaName b.signals.length) b.ops 0 none with
      | .error opsAtCrash =>
          .error { b with
                   inputs := b.inputs ++ [kName b.key.length],
                   signals := b.signals ++ [gaName b.signals.length],
                   key := pyNewKey b.key g s,
                   ops := opsAtCrash }
      | .ok (ops2, idx) =>
          .ok { b with
                inputs := b.inputs ++ [kName b.key.length],
                signals := b.signals ++ [gaName b.signals.length],
                key := pyNewKey b.key g s,
                ops := insertAt idx (⟨gaName b.signals.length, if g then 7 else 8,
                  [(splitArrow w).headD "", kName b.key.length]⟩ : LogicOp) ops2 }) := by
  simp only [insertOne, if_pos hc, pyNewKey]

lemma insertOne_case2_eq (b : Bench) (w : String) (g : Bool) (s : Nat)
    (hc : ¬ (2 ≤ (splitArrow w).length ∧ (splitArrow w).headD "" ∉ b.changed_signals)) :
    insertOne b w g s =
      .ok { b with
            inputs := b.inputs ++ [kName b.key.length],
            signals := b.signals ++ [gaName b.signals.length],
            key := pyNewKey b.key g s,
            changed_signals := b.changed_signals ++
              (case2Go ((splitArrow w).headD "") (gaName b.signals.length) b.ops 0 none).2.1,
            ops := insertAt
              (case2Go ((splitArrow w).headD "") (gaName b.signals.length) b.ops 0 none).2.2
              (⟨gaName b.signals.length, if g then 7 else 8,
                [(splitArrow w).headD "", kName b.key.length]⟩ : LogicOp)
              (case2Go ((splitArrow w).headD "") (gaName b.signals.length) b.ops 0 none).1 } := by
  simp only [insertOne, if_neg hc, pyNewKey]

lemma mem_allNames {b : Bench} {x : String} :
    x ∈ allNames b ↔
      (x ∈ b.inputs ∨ x ∈ b.outputs ∨ ∃ op ∈ b.ops, x = op.assignee ∨ x ∈ op.operands) := by
  simp [allNames, List.mem_flatten]

lemma insertOne_ok_shape {b : Bench} {w : String} {g : Bool} {s : Nat} {b1 : Bench}
    (hok : insertOne b w g s = .ok b1) :
    b1.name = b.name ∧
    b1.inputs = b.inputs ++ [kName b.key.length] ∧
    b1.outputs = b.outputs ∧
    b1.signals = b.signals ++ [gaName b.signals.length] ∧
    b1.includes_dff = b.includes_dff ∧
    ((s = 0 ∨ s = 1) → b1.key = b.key ++ (if g then "0" else "1")) ∧
    (b1.ops = b.ops ∨
      ∃ pre hd tl suf2,
        b.ops = pre ++ hd :: tl ∧
        (splitArrow w).headD "" ∈ hd.operands ∧
        List.Forall₂ (OpRw ((splitArrow w).headD "") (gaName b.signals.length)) (hd :: tl) suf2 ∧
        b1.ops = pre ++ (⟨gaName b.signals.length, if g then 7 else 8,
          [(splitArrow w).headD "", kName b.key.length]⟩ : LogicOp) :: suf2) := by
  by_cases hc : 2 ≤ (splitArrow w).length ∧ (splitArrow w).headD "" ∉ b.changed_signals
  · rw [insertOne_case1_eq b w g s hc] at hok
    match hgo : case1Go ((splitArrow w).headD "") ((splitArrow w).getD 1 "")
        (gaName b.signals.length) b.ops 0 none with
    | .error t =>
        rw [hgo] at hok
        exact absurd hok (by simp)
    | .ok r =>
        rw [hgo] at hok
        have hb1 : b1 = { b with
            inputs := b.inputs ++ [kName b.key.length],
            signals := b.signals ++ [gaName b.signals.length],
            key := pyNewKey b.key g s,
            ops := insertAt r.2 (⟨gaName b.signals.length, if g then 7 else 8,
              [(splitArrow w).headD "", kName b.key.length]⟩ : LogicOp) r.1 } := by
          have := congrArg (fun x : Except Bench Bench =>
            match x with | .ok v => v | .error _ => b1) hok
          simpa using this.symm
        have hok1 := case1Go_ok_cond _ _ _ hgo
        refine ⟨by rw [hb1], by rw [hb1], by rw [hb1], by rw [hb1], by rw [hb1],
          fun hs => by rw [hb1]; exact pyNewKey_eq b.key g hs, ?_⟩
        rcases exists_first_split (fun op => op.assignee = (splitArrow w).getD 1 "") b.ops with
          hnm | ⟨pre, hd, tl, heq, hpre, hhd⟩
        · left
          rw [case1Go_nomatch _ _ _ hnm 0] at hgo
          have hr : r = (b.ops, none) := by
            have := hgo.symm
            simpa using this
          have hops : b1.ops = b.ops := by rw [hb1, hr]; rfl
          exact hops
        · right
          rw [heq] at hgo
          rw [case1Go_split _ _ _ hd tl hhd
            (fun o ho h2 => hok1 o (by rw [heq]; exact List.mem_append_right pre ho) h2)
            pre hpre 0] at hgo
          have hr : r = (pre ++ rewriteCase1 ((splitArrow w).headD "")
              ((splitArrow w).getD 1 "") (gaName b.signals.length) (hd :: tl),
              some (0 + pre.length)) := by
            have := hgo.symm
            simpa using this
          refine ⟨pre, hd, tl, rewriteCase1 ((splitArrow w).headD "")
            ((splitArrow w).getD 1 "") (gaName b.signals.length) (hd :: tl),
            heq, ?_, rewriteCase1_rw _ _ _ _, ?_⟩
          · exact hok1 hd (by rw [heq]; simp) hhd
          · have hops : b1.ops = List.insertIdx (0 + pre.length)
                (⟨gaName b.signals.length, if g then 7 else 8,
                  [(splitArrow w).headD "", kName b.key.length]⟩ : LogicOp)
                (pre ++ rewriteCase1 ((splitArrow w).headD "")
                  ((splitArrow w).getD 1 "") (gaName b.signals.length) (hd :: tl)) := by
              rw [hb1, hr]; rfl
            rw [hops, show (0 : Nat) + pre.length = pre.length by omega,
              insertIdx_decomp _ _ _ (by simp), List.take_left, List.drop_left]
  · rw [insertOne_case2_eq b w g s hc] at hok
    have hb1 : b1 = { b with
        inputs := b.inputs ++ [kName b.key.length],
        signals := b.signals ++ [gaName b.signals.length],
        key := pyNewKey b.key g s,
        changed_signals := b.changed_signals ++
          (case2Go ((splitArrow w).headD "") (gaName b.signals.length) b.ops 0 none).2.1,
        ops := insertAt
          (case2Go ((splitArrow w).headD "") (gaName b.signals.length) b.ops 0 none).2.2
          (⟨gaName b.signals.length, if g then 7 else 8,
            [(splitArrow w).headD "", kName b.key.length]⟩ : LogicOp)
          (case2Go ((splitArrow w).headD "") (gaName b.signals.length) b.ops 0 none).1 } := by
      have := congrArg (fun x : Except Bench Bench =>
        match x with | .ok v => v | .error _ => b1) hok
      simpa using this.symm
    refine ⟨by rw [hb1], by rw [hb1], by rw [hb1], by rw [hb1], by rw [hb1],
      fun hs => by rw [hb1]; exact pyNewKey_eq b.key g hs, ?_⟩
    rcases exists_first_split (fun op => (splitArrow w).headD "" ∈ op.operands) b.ops with
      hnm | ⟨pre, hd, tl, heq, hpre, hhd⟩
    · left
      have hops : b1.ops = b.ops := by
        rw [hb1, show (case2Go ((splitArrow w).headD "") (gaName b.signals.length) b.ops 0 none)
          = (b.ops, [], none) from case2Go_nomatch _ _ hnm 0]
        rfl
      exact hops
    · right
      refine ⟨pre, hd, tl, rewriteFirstAll ((splitArrow w).headD "")
        (gaName b.signals.length) (hd :: tl), heq, hhd, rewriteFirstAll_rw _ _ _, ?_⟩
      have hops : b1.ops = List.insertIdx (0 + pre.length)
          (⟨gaName b.signals.length, if g then 7 else 8,
            [(splitArrow w).headD "", kName b.key.length]⟩ : LogicOp)
          (pre ++ rewriteFirstAll ((splitArrow w).headD "")
            (gaName b.signals.length) (hd :: tl)) := by
        rw [hb1, show (case2Go ((splitArrow w).headD "") (gaName b.signals.length) b.ops 0 none)
          = (pre ++ rewriteFirstAll ((splitArrow w).headD "") (gaName b.signals.length) (hd :: tl),
             List.replicate ((hd :: tl).countP
               (fun op => decide ((splitArrow w).headD "" ∈ op.operands))) ((splitArrow w).headD ""),
             some (0 + pre.length)) from by
          rw [heq]; exact case2Go_split _ _ hd tl hhd pre hpre 0]
        rfl
      rw [hops, show (0 : Nat) + pre.length = pre.length by omega,
        insertIdx_decomp _ _ _ (by simp), List.take_left, List.drop_left]

/-! ## Soundness of one insertion step -/

lemma opFresh_of_not_mem {b : Bench} {y : String} (h : y ∉ allNames b) :
    ∀ op ∈ b.ops, opFresh y op := by
  intro op hop
  constructor
  · intro he
    exact h (mem_allNames.mpr (Or.inr (Or.inr ⟨op, hop, Or.inl he.symm⟩)))
  · intro he
    exact h (mem_allNames.mpr (Or.inr (Or.inr ⟨op, hop, Or.inr he⟩)))

lemma assignee_mem_allNames {b : Bench} {op : LogicOp} (hop : op ∈ b.ops) :
    op.assignee ∈ allNames b :=
  mem_allNames.mpr (Or.inr (Or.inr ⟨op, hop, Or.inl rfl⟩))

lemma operand_mem_allNames {b : Bench} {op : LogicOp} {x : String}
    (hop : op ∈ b.ops) (hx : x ∈ op.operands) : x ∈ allNames b :=
  mem_allNames.mpr (Or.inr (Or.inr ⟨op, hop, Or.inr hx⟩))

lemma allNames_step_sub {b b1 : Bench} {ns ki w0 : String} {gop : Nat}
    (hin : b1.inputs = b.inputs ++ [ki])
    (hout : b1.outputs = b.outputs)
    (hops : b1.ops = b.ops ∨
      ∃ pre hd tl suf2, b.ops = pre ++ hd :: tl ∧ w0 ∈ hd.operands ∧
        List.Forall₂ (OpRw w0 ns) (hd :: tl) suf2 ∧
        b1.ops = pre ++ (⟨ns, gop, [w0, ki]⟩ : LogicOp) :: suf2) :
    ∀ x, x ∈ allNames b1 → x ∈ allNames b ∨ x = ns ∨ x = ki := by
  intro x hx
  rcases mem_allNames.mp hx with hxi | hxo | ⟨op, hop, hao⟩
  · rw [hin] at hxi
    rcases List.mem_append.mp hxi with h1 | h1
    · exact Or.inl (mem_allNames.mpr (Or.inl h1))
    · simp only [List.mem_singleton] at h1
      exact Or.inr (Or.inr h1)
  · rw [hout] at hxo
    exact Or.inl (mem_allNames.mpr (Or.inr (Or.inl hxo)))
  · rcases hops with heq | ⟨pre, hd, tl, suf2, heq, hw0, hrw, heq1⟩
    · rw [heq] at hop
      exact Or.inl (mem_allNames.mpr (Or.inr (Or.inr ⟨op, hop, hao⟩)))
    · rw [heq1] at hop
      rcases List.mem_append.mp hop with hpre | hcons
      · have hopb : op ∈ b.ops := by rw [heq]; exact List.mem_append_left _ hpre
        exact Or.inl (mem_allNames.mpr (Or.inr (Or.inr ⟨op, hopb, hao⟩)))
      · rcases List.mem_cons.mp hcons with rfl | hsuf2
        · rcases hao with h1 | h1
          · exact Or.inr (Or.inl h1)
          · rcases List.mem_cons.mp h1 with rfl | h2
            · have hhd : hd ∈ b.ops := by rw [heq]; simp
              exact Or.inl (operand_mem_allNames hhd hw0)
            · simp only [List.mem_singleton] at h2
              exact Or.inr (Or.inr h2)
        · obtain ⟨op0, hop0, hrw0⟩ := forall₂_mem_right hrw op hsuf2
          have hop0b : op0 ∈ b.ops := by rw [heq]; exact List.mem_append_right _ hop0
          rcases hao with h1 | h1
          · rw [h1, hrw0.1]
            exact Or.inl (assignee_mem_allNames hop0b)
          · obtain ⟨a, ha, har⟩ := forall₂_mem_right hrw0.2.2 x h1
            rcases har with hba | ⟨haw, hbn⟩
            · refine Or.inl (operand_mem_allNames hop0b ?_)
              rw [hba]; exact ha
            · exact Or.inr (Or.inl hbn)

lemma suf_not_assign {b : Bench} (hInv : Inv b) {pre : List LogicOp} {hd : LogicOp}
    {tl : List LogicOp} {w0 : String} (heq : b.ops = pre ++ hd :: tl)
    (hw0 : w0 ∈ hd.operands) : ∀ op ∈ hd :: tl, op.assignee ≠ w0 := by
  have hord : OrderedFrom b.inputs (pre ++ hd :: tl) := heq ▸ hInv.ordered
  have hsuf : OrderedFrom (definedAfter b.inputs pre) (hd :: tl) :=
    (orderedFrom_append.mp hord).2
  have hsuf1 : (∀ x ∈ hd.operands, x ∈ definedAfter b.inputs pre) ∧
      OrderedFrom (hd.assignee :: definedAfter b.inputs pre) tl := hsuf
  have hw0def : w0 ∈ definedAfter b.inputs pre := hsuf1.1 w0 hw0
  rcases mem_definedAfter.mp hw0def with hw0in | hw0pre
  · intro op hop he
    have hopb : op ∈ b.ops := by
      rw [heq]; exact List.mem_append_right _ hop
    exact hInv.noInputAssign op hopb (he ▸ hw0in)
  · intro op hop he
    have hnd : ((pre ++ hd :: tl).map (fun op => op.assignee)).Nodup := heq ▸ hInv.nodup
    rw [List.map_append] at hnd
    have hdisj := List.disjoint_of_nodup_append hnd
    exact hdisj hw0pre (by
      rw [← he]
      exact List.mem_map.mpr ⟨op, hop, rfl⟩)

lemma key_gate_identity (g : Bool) : ∀ x : Bool, evalGate (if g then 7 else 8) [x, !g] = x := by
  intro x
  cases g <;> cases x <;> rfl

/-- Evaluating the netlist with the key gate inserted before the rewritten
suffix: the result is the original final valuation, updated at the key input
and at the new signal only. -/
lemma evalOps_insert {w0 ns ki : String} {kb : Bool} {gop : Nat}
    (pre suf suf2 : List LogicOp)
    (hrw : List.Forall₂ (OpRw w0 ns) suf suf2)
    (hpre_ki : ∀ op ∈ pre, opFresh ki op)
    (hsuf : ∀ op ∈ suf, opFresh ns op ∧ opFresh ki op ∧ op.assignee ≠ w0)
    (hw0ns : w0 ≠ ns) (hw0ki : w0 ≠ ki) (hnski : ns ≠ ki)
    (hkey : ∀ x : Bool, evalGate gop [x, kb] = x) :
    ∀ e : Env,
      evalOps (pre ++ (⟨ns, gop, [w0, ki]⟩ : LogicOp) :: suf2) (updEnv e ki kb) =
        updEnv (updEnv (evalOps (pre ++ suf) e) ki kb) ns ((evalOps pre e) w0) := by
  intro e
  rw [evalOps_append, evalOps_append]
  rw [evalOps_fresh hpre_ki e kb]
  rw [evalOps_cons]
  have hstep : evalStep (updEnv (evalOps pre e) ki kb) ⟨ns, gop, [w0, ki]⟩ =
      updEnv (updEnv (evalOps pre e) ki kb) ns ((evalOps pre e) w0) := by
    simp only [evalStep]
    have h1 : (updEnv (evalOps pre e) ki kb) w0 = (evalOps pre e) w0 := updEnv_ne _ _ hw0ki
    have h2 : (updEnv (evalOps pre e) ki kb) ki = kb := updEnv_self _ _ _
    simp [h1, h2, hkey]
  rw [hstep]
  exact evalOps_rw hw0ns hw0ki hnski hrw hsuf (evalOps pre e)

lemma insertOne_sound {b : Bench} {w : String} {g : Bool} {s : Nat} {b1 : Bench}
    (hInv : Inv b) (hs : s = 0 ∨ s = 1) (hok : insertOne b w g s = .ok b1) :
    Inv b1 ∧
    b1.outputs = b.outputs ∧
    b1.signals.length = b.signals.length + 1 ∧
    b1.key = b.key ++ (if g then "0" else "1") ∧
    (∀ env : Env, ∀ x : String, x ≠ gaName b.signals.length → x ≠ kName b.key.length →
      evalOps b1.ops (updEnv env (kName b.key.length) (!g)) x = evalOps b.ops env x) := by
  obtain ⟨hname, hin, hout, hsig, hdff, hkeyC, hops⟩ := insertOne_ok_shape hok
  have hkey : b1.key = b.key ++ (if g then "0" else "1") := hkeyC hs
  have hnsF : gaName b.signals.length ∉ allNames b := hInv.freshGA _ (le_refl _)
  have hkiF : kName b.key.length ∉ allNames b := hInv.freshK _ (le_refl _)
  have hnski : gaName b.signals.length ≠ kName b.key.length := gaName_ne_kName _ _
  have hFrNs : ∀ op ∈ b.ops, opFresh (gaName b.signals.length) op := opFresh_of_not_mem hnsF
  have hFrKi : ∀ op ∈ b.ops, opFresh (kName b.key.length) op := opFresh_of_not_mem hkiF
  have hsub := allNames_step_sub hin hout hops
  have hsigLen : b1.signals.length = b.signals.length + 1 := by
    rw [hsig]; simp
  have hkeyLen : b1.key.length = b.key.length + 1 := by
    rw [hkey]
    cases g
    · rw [show (if false = true then "0" else "1") = "1" from rfl, String.length_append]
      rfl
    · rw [show (if true = true then "0" else "1") = "0" from rfl, String.length_append]
      rfl

  have hnsNotInputs : gaName b.signals.length ∉ b.inputs :=
    fun hmem => hnsF (mem_allNames.mpr (Or.inl hmem))
  have hkiNotInputs : kName b.key.length ∉ b.inputs :=
    fun hmem => hkiF (mem_allNames.mpr (Or.inl hmem))
  -- the assignee list of the new operation list
  have hInv1 : Inv b1 := by
    rcases hops with heq1 | ⟨pre, hd, tl, suf2, heq, hw0, hrw, heq1⟩
    · refine ⟨?_, ?_, ?_, ?_, ?_⟩
      · rw [heq1]; exact hInv.nodup
      · intro op hop
        rw [heq1] at hop
        rw [hin]
        intro hmem
        rcases List.mem_append.mp hmem with h1 | h1
        · exact hInv.noInputAssign op hop h1
        · simp only [List.mem_singleton] at h1
          exact hkiF (h1 ▸ assignee_mem_allNames hop)
      · rw [heq1, hin]
        exact orderedFrom_mono (fun x hx => List.mem_append_left _ hx) hInv.ordered
      · intro i hi
        intro hmem
        rcases hsub _ hmem with h1 | h1 | h1
        · exact hInv.freshGA i (by omega) h1
        · exact absurd (gaName_inj h1) (by omega)
        · exact gaName_ne_kName i b.key.length h1
      · intro i hi
        intro hmem
        rcases hsub _ hmem with h1 | h1 | h1
        · exact hInv.freshK i (by omega) h1
        · exact gaName_ne_kName b.signals.length i h1.symm
        · exact absurd (kName_inj h1) (by omega)
    · have hsufops : ∀ op ∈ hd :: tl, op ∈ b.ops := by
        intro op hop; rw [heq]; exact List.mem_append_right _ hop
      have hpreops : ∀ op ∈ pre, op ∈ b.ops := by
        intro op hop; rw [heq]; exact List.mem_append_left _ hop
      have hmapsuf : suf2.map (fun op => op.assignee) = (hd :: tl).map (fun op => op.assignee) :=
        forall₂_assignee_map hrw
      refine ⟨?_, ?_, ?_, ?_, ?_⟩
      · rw [heq1]
        rw [List.map_append, List.map_cons, hmapsuf]
        rw [(List.perm_middle).nodup_iff]
        refine List.nodup_cons.mpr ⟨?_, ?_⟩
        · intro hmem
          rw [← List.map_append, ← heq] at hmem
          obtain ⟨op, hop, hasg⟩ := List.mem_map.mp hmem
          refine hnsF ?_
          have hasg2 : op.assignee = gaName b.signals.length := hasg
          rw [← hasg2]
          exact assignee_mem_allNames hop
        · rw [← List.map_append, ← heq]
          exact hInv.nodup
      · intro op hop
        rw [hin]
        intro hmem
        have hasg : op.assignee = gaName b.signals.length ∨ ∃ op0 ∈ b.ops, op.assignee = op0.assignee := by
          rw [heq1] at hop
          rcases List.mem_append.mp hop with h1 | h1
          · exact Or.inr ⟨op, hpreops op h1, rfl⟩
          · rcases List.mem_cons.mp h1 with rfl | h2
            · exact Or.inl rfl
            · obtain ⟨op0, hop0, hrw0⟩ := forall₂_mem_right hrw op h2
              exact Or.inr ⟨op0, hsufops op0 hop0, hrw0.1⟩
        rcases List.mem_append.mp hmem with h1 | h1
        · rcases hasg with h2 | ⟨op0, hop0, h2⟩
          · exact hnsF (by rw [← h2]; exact mem_allNames.mpr (Or.inl h1))
          · exact hInv.noInputAssign op0 hop0 (h2 ▸ h1)
        · simp only [List.mem_singleton] at h1
          rcases hasg with h2 | ⟨op0, hop0, h2⟩
          · exact hnski (h2 ▸ h1)
          · exact hkiF (by rw [← h1, h2]; exact assignee_mem_allNames hop0)
      · rw [heq1, hin]
        have hordb : OrderedFrom b.inputs (pre ++ hd :: tl) := heq ▸ hInv.ordered
        have hpreord := (orderedFrom_append.mp hordb).1
        have hsuford := (orderedFrom_append.mp hordb).2
        rw [orderedFrom_append]
        constructor
        · exact orderedFrom_mono (fun x hx => List.mem_append_left _ hx) hpreord
        · show (∀ x ∈ [(splitArrow w).headD "", kName b.key.length],
              x ∈ definedAfter (b.inputs ++ [kName b.key.length]) pre) ∧
            OrderedFrom (gaName b.signals.length ::
              definedAfter (b.inputs ++ [kName b.key.length]) pre) suf2
          constructor
          · intro x hx
            rcases List.mem_cons.mp hx with rfl | hx2
            · have hsuf1 : (∀ y ∈ hd.operands, y ∈ definedAfter b.inputs pre) ∧
                  OrderedFrom (hd.assignee :: definedAfter b.inputs pre) tl := hsuford
              have := hsuf1.1 _ hw0
              rcases mem_definedAfter.mp this with h1 | h1
              · exact mem_definedAfter.mpr (Or.inl (List.mem_append_left _ h1))
              · exact mem_definedAfter.mpr (Or.inr h1)
            · simp only [List.mem_singleton] at hx2
              subst hx2
              exact mem_definedAfter.mpr (Or.inl (List.mem_append_right _ (by simp)))
          · refine orderedFrom_rw hrw (by simp) ?_
            refine orderedFrom_mono ?_ hsuford
            intro x hx
            rcases mem_definedAfter.mp hx with h1 | h1
            · exact List.mem_cons_of_mem _
                (mem_definedAfter.mpr (Or.inl (List.mem_append_left _ h1)))
            · exact List.mem_cons_of_mem _ (mem_definedAfter.mpr (Or.inr h1))
      · intro i hi
        intro hmem
        rcases hsub _ hmem with h1 | h1 | h1
        · exact hInv.freshGA i (by omega) h1
        · exact absurd (gaName_inj h1) (by omega)
        · exact gaName_ne_kName i b.key.length h1
      · intro i hi
        intro hmem
        rcases hsub _ hmem with h1 | h1 | h1
        · exact hInv.freshK i (by omega) h1
        · exact gaName_ne_kName b.signals.length i h1.symm
        · exact absurd (kName_inj h1) (by omega)
  refine ⟨hInv1, hout, hsigLen, hkey, ?_⟩
  intro env x hxns hxki
  rcases hops with heq1 | ⟨pre, hd, tl, suf2, heq, hw0, hrw, heq1⟩
  · rw [heq1]
    rw [evalOps_fresh hFrKi env (!g)]
    exact updEnv_ne _ _ hxki
  · have hhd : hd ∈ b.ops := by rw [heq]; simp
    have hw0N : (splitArrow w).headD "" ∈ allNames b := operand_mem_allNames hhd hw0
    have hw0ns : (splitArrow w).headD "" ≠ gaName b.signals.length :=
      fun h => hnsF (h ▸ hw0N)
    have hw0ki : (splitArrow w).headD "" ≠ kName b.key.length :=
      fun h => hkiF (h ▸ hw0N)
    have hsufA := suf_not_assign hInv heq hw0
    have hsufops : ∀ op ∈ hd :: tl, op ∈ b.ops := by
      intro op hop; rw [heq]; exact List.mem_append_right _ hop
    have hpreops : ∀ op ∈ pre, op ∈ b.ops := by
      intro op hop; rw [heq]; exact List.mem_append_left _ hop
    rw [heq1]
    rw [evalOps_insert pre (hd :: tl) suf2 hrw
      (fun op hop => hFrKi op (hpreops op hop))
      (fun op hop => ⟨hFrNs op (hsufops op hop), hFrKi op (hsufops op hop), hsufA op hop⟩)
      hw0ns hw0ki hnski (key_gate_identity g) env]
    rw [updEnv_ne _ _ hxns, updEnv_ne _ _ hxki, heq]

/-! ## Soundness of the insertion loop -/

lemma string_length_data (s : String) : s.length = s.data.length := rfl

lemma igGo_sound {s : Nat} {rand : Nat → Bool} {wires : List String} (hs : s = 0 ∨ s = 1) :
    ∀ (n i : Nat) (b b2 : Bench), Inv b → igGo s rand wires i n b = .ok b2 →
      Inv b2 ∧ b2.outputs = b.outputs ∧
      b2.signals.length = b.signals.length + n ∧
      b2.key.length = b.key.length + n ∧
      (∃ added : List Char, b2.key.data = b.key.data ++ added) ∧
      ∀ (env : Env) (x : String),
        (∀ k, b.signals.length ≤ k → x ≠ gaName k) →
        (∀ k, b.key.length ≤ k → x ≠ kName k) →
        evalOps b2.ops (setKeys env b.key.length (b2.key.data.drop b.key.length)) x =
          evalOps b.ops env x := by
  intro n
  induction n with
  | zero =>
      intro i b b2 hInv hok
      have hb2 : b = b2 := by simpa [igGo] using hok
      subst hb2
      refine ⟨hInv, rfl, by omega, by omega, ⟨[], by simp⟩, ?_⟩
      intro env x _ _
      rw [show b.key.data.drop b.key.length = [] from by
        rw [string_length_data]; simp]
      rfl
  | succ m ih =>
      intro i b b2 hInv hok
      match hw : wires[i]? with
      | none =>
          rw [show igGo s rand wires i (m + 1) b = .error b from by simp [igGo, hw]] at hok
          exact absurd hok (by simp)
      | some w =>
          match hone : insertOne b w (rand i) s with
          | .error b1 =>
              rw [show igGo s rand wires i (m + 1) b = .error b1 from by
                simp [igGo, hw, hone]] at hok
              exact absurd hok (by simp)
          | .ok b1 =>
              have hok2 : igGo s rand wires (i + 1) m b1 = .ok b2 := by
                rw [show igGo s rand wires i (m + 1) b = igGo s rand wires (i + 1) m b1 from by
                  simp [igGo, hw, hone]] at hok
                exact hok
              obtain ⟨hInv1, hout1, hsig1, hkey1, heval1⟩ := insertOne_sound hInv hs hone
              obtain ⟨hInv2, hout2, hsig2, hkey2, ⟨added2, hdat2⟩, heval2⟩ :=
                ih (i + 1) b1 b2 hInv1 hok2
              have hkeyLen1 : b1.key.length = b.key.length + 1 := by
                rw [hkey1]
                cases rand i
                · rw [show (if false = true then "0" else "1") = "1" from rfl,
                    String.length_append]
                  rfl
                · rw [show (if true = true then "0" else "1") = "0" from rfl,
                    String.length_append]
                  rfl
              have hb1data : b1.key.data = b.key.data ++ [if rand i then '0' else '1'] := by
                rw [hkey1]
                cases rand i
                · rw [show (if false = true then "0" else "1") = "1" from rfl,
                    show (if (false : Bool) then '0' else '1') = '1' from rfl,
                    String.data_append]
                · rw [show (if true = true then "0" else "1") = "0" from rfl,
                    show (if (true : Bool) then '0' else '1') = '0' from rfl,
                    String.data_append]
              have hb2data : b2.key.data =
                  (b.key.data ++ [if rand i then '0' else '1']) ++ added2 := by
                rw [hdat2, hb1data]
              refine ⟨hInv2, hout2.trans hout1, by omega, by omega,
                ⟨[if rand i then '0' else '1'] ++ added2, by rw [hb2data, List.append_assoc]⟩, ?_⟩
              intro env x hxga hxk
              have hdrop : b2.key.data.drop b.key.length =
                  (if rand i then '0' else '1') :: added2 := by
                rw [hb2data, List.append_assoc, string_length_data, List.drop_left]
                rfl
              have hdrop1 : b2.key.data.drop b1.key.length = added2 := by
                rw [hdat2, string_length_data, List.drop_left]
              rw [hdrop]
              have hbit : (decide ((if rand i then '0' else '1') = '1')) = !(rand i) := by
                cases rand i <;> rfl
              have hsetK : setKeys env b.key.length
                  ((if rand i then '0' else '1') :: added2) =
                  setKeys (updEnv env (kName b.key.length) (!(rand i)))
                    (b.key.length + 1) added2 := by
                rw [show setKeys env b.key.length ((if rand i then '0' else '1') :: added2)
                    = setKeys (updEnv env (kName b.key.length)
                        (decide ((if rand i then '0' else '1') = '1')))
                      (b.key.length + 1) added2 from rfl, hbit]
              rw [hsetK]
              have h2 := heval2 (updEnv env (kName b.key.length) (!(rand i))) x
                (fun k hk => hxga k (by omega))
                (fun k hk => hxk k (by omega))
              rw [hdrop1] at h2
              rw [show b1.key.length = b.key.length + 1 from hkeyLen1] at h2
              rw [h2]
              exact heval1 env x (hxga _ (le_refl _)) (hxk _ (le_refl _))

lemma igGo_ok_step {s : Nat} {rand : Nat → Bool} {wires : List String} {i n : Nat}
    {b b2 : Bench} (hok : igGo s rand wires i (n + 1) b = .ok b2) :
    ∃ w b1, wires[i]? = some w ∧ insertOne b w (rand i) s = .ok b1 ∧
      igGo s rand wires (i + 1) n b1 = .ok b2 := by
  match hw : wires[i]? with
  | none =>
      rw [show igGo s rand wires i (n + 1) b = .error b from by simp [igGo, hw]] at hok
      exact absurd hok (by simp)
  | some w =>
      match hone : insertOne b w (rand i) s with
      | .error b1 =>
          rw [show igGo s rand wires i (n + 1) b = .error b1 from by
            simp [igGo, hw, hone]] at hok
          exact absurd hok (by simp)
      | .ok b1 =>
          refine ⟨w, b1, rfl, hone, ?_⟩
          rw [show igGo s rand wires i (n + 1) b = igGo s rand wires (i + 1) n b1 from by
            simp [igGo, hw, hone]] at hok
          exact hok

lemma igGo_key_growth {s : Nat} (hs : s = 0 ∨ s = 1) {rand : Nat → Bool} {wires : List String} :
    ∀ (n i : Nat) (b b2 : Bench), igGo s rand wires i n b = .ok b2 →
      b2.key.length = b.key.length + n := by
  intro n
  induction n with
  | zero =>
      intro i b b2 hok
      have hb2 : b = b2 := by simpa [igGo] using hok
      subst hb2
      omega
  | succ m ih =>
      intro i b b2 hok
      obtain ⟨w, b1, hw, hone, hrest⟩ := igGo_ok_step hok
      obtain ⟨_, _, _, _, _, hkeyC, _⟩ := insertOne_ok_shape hone
      have hkey1 : b1.key.length = b.key.length + 1 := by
        rw [hkeyC hs]
        cases rand i
        · rw [show (if false = true then "0" else "1") = "1" from rfl, String.length_append]
          rfl
        · rw [show (if true = true then "0" else "1") = "0" from rfl, String.length_append]
          rfl
      have := ih (i + 1) b1 b2 hrest
      omega

lemma igGo_io_growth {s : Nat} {rand : Nat → Bool} {wires : List String} :
    ∀ (n i : Nat) (b b2 : Bench), igGo s rand wires i n b = .ok b2 →
      b2.inputs.length = b.inputs.length + n ∧
      b2.signals.length = b.signals.length + n ∧
      b2.outputs = b.outputs ∧
      b.inputs.IsPrefix b2.inputs ∧
      b.signals.IsPrefix b2.signals := by
  intro n
  induction n with
  | zero =>
      intro i b b2 hok
      have hb2 : b = b2 := by simpa [igGo] using hok
      subst hb2
      exact ⟨by omega, by omega, rfl, List.prefix_refl _, List.prefix_refl _⟩
  | succ m ih =>
      intro i b b2 hok
      obtain ⟨w, b1, hw, hone, hrest⟩ := igGo_ok_step hok
      obtain ⟨_, hin, hout, hsig, _, _, _⟩ := insertOne_ok_shape hone
      obtain ⟨hlen2, hslen2, hout2, hpre2, hspre2⟩ := ih (i + 1) b1 b2 hrest
      refine ⟨by rw [hlen2, hin]; simp; omega, by rw [hslen2, hsig]; simp; omega,
        hout2.trans hout, ?_, ?_⟩
      · exact List.IsPrefix.trans (by rw [hin]; exact ⟨[kName b.key.length], rfl⟩) hpre2
      · exact List.IsPrefix.trans (by rw [hsig]; exact ⟨[gaName b.signals.length], rfl⟩) hspre2

lemma igGo_short_err {s : Nat} {rand : Nat → Bool} {wires : List String} :
    ∀ (n i : Nat) (b : Bench), 1 ≤ n → wires.length < i + n →
      ∃ st, igGo s rand wires i n b = .error st := by
  intro n
  induction n with
  | zero => intro i b h0 h; omega
  | succ m ih =>
      intro i b h0 h
      match hw : wires[i]? with
      | none => exact ⟨b, by simp [igGo, hw]⟩
      | some w =>
          have hi : i < wires.length := by
            by_contra hge
            rw [List.getElem?_eq_none (by omega)] at hw
            exact absurd hw (by simp)
          match hone : insertOne b w (rand i) s with
          | .error b1 => exact ⟨b1, by simp [igGo, hw, hone]⟩
          | .ok b1 =>
              obtain ⟨st, hst⟩ := ih (i + 1) b1 (by omega) (by omega)
              exact ⟨st, by rw [show igGo s rand wires i (m + 1) b
                = igGo s rand wires (i + 1) m b1 from by simp [igGo, hw, hone]]; exact hst⟩

lemma freshGA_of_heads {b : Bench} (h : ∀ x ∈ allNames b, ¬ x.data.head? = some 'G') :
    ∀ i : Nat, b.signals.length ≤ i → gaName i ∉ allNames b :=
  fun i _ => notMem_of_head (fun x hx => by rw [gaName_head]; exact h x hx)

lemma freshK_of_heads {b : Bench} (h : ∀ x ∈ allNames b, ¬ x.data.head? = some 'K') :
    ∀ i : Nat, b.key.length ≤ i → kName i ∉ allNames b :=
  fun i _ => notMem_of_head (fun x hx => by rw [kName_head]; exact h x hx)

/-! ## Claim C1 -/

/-- C1: for every well-formed netlist (unique assignees, no input reassigned,
topologically ordered operand references, generated `GA…gat`/`K…gat` names
unused) and every primary-input valuation, a successful
`insert_key_gates` call, evaluated with every newly added key input set to
its recorded correct bit (the appended portion of the accumulated `key`
string), produces exactly the original value on every primary output. -/
theorem C1_correct_key_preserves_outputs
    (b : Bench) (wires : List String) (n s : Nat) (rand : Nat → Bool) (b2 : Bench)
    (hInv : Inv b) (hs : s = 0 ∨ s = 1)
    (hok : insert_key_gates b wires n s rand = .ok b2)
    (env : Env) (o : String) (ho : o ∈ b.outputs) :
    evalOps b2.ops (setKeys env b.key.length (b2.key.data.drop b.key.length)) o =
      evalOps b.ops env o := by
  obtain ⟨hInv2, hout, hsig, hkey, hpref, heval⟩ := igGo_sound hs n 0 b b2 hInv hok
  refine heval env o ?_ ?_
  · intro k hk he
    refine hInv.freshGA k hk ?_
    rw [← he]
    exact mem_allNames.mpr (Or.inr (Or.inl ho))
  · intro k hk he
    refine hInv.freshK k hk ?_
    rw [← he]
    exact mem_allNames.mpr (Or.inr (Or.inl ho))

/-- Witness for C1 at the concrete AND netlist, candidate edge `a->o`,
XOR gate (correct key bit `0`), with input valuation `a = true, b = false`. -/
theorem C1_witness :
    evalOps andBenchLocked.ops
        (setKeys (fun z => z == "a") andBench.key.length
          (andBenchLocked.key.data.drop andBench.key.length)) "o" =
      evalOps andBench.ops (fun z => z == "a") "o" := by
  refine C1_correct_key_preserves_outputs andBench ["a->o"] 1 0 (fun _ => true)
    andBenchLocked ?_ (Or.inl rfl) (by rfl) (fun z => z == "a") "o" (by decide)
  exact ⟨by decide, by decide, by decide,
    freshGA_of_heads (by decide), freshK_of_heads (by decide)⟩

/-! ## Claim C2 -/

/-- C2 counterexample: the candidate `x` has no consumer, so the new gate
is dropped (the operation list is unchanged) — yet `len(key)` still grows
by exactly `count`, because the key bit is appended before the consumer
scan.  This contradicts the claim that the key bit is dropped along with
the gate and that `len(key)` detects drops. -/
theorem C2_counterexample :
    okBench (insert_key_gates andBench ["x"] 1 0 (fun _ => true)) = some andBenchDropped ∧
    andBenchDropped.ops = andBench.ops ∧
    andBenchDropped.key.length = andBench.key.length + 1 := by
  exact ⟨by rfl, by rfl, by rfl⟩

/-- C2 (amended): when a candidate wire has no matching consumer operand,
the new gate is silently dropped without raising, but its key bit is NOT
dropped: every successful `insert_key_gates` call with polarity 0 or 1
grows `len(key)` by exactly `count`, dropped gates or not, so checking
`len(key)` afterwards cannot detect dropped insertions. -/
theorem C2_key_grows_despite_drops
    (b : Bench) (wires : List String) (n s : Nat) (rand : Nat → Bool) (b2 : Bench)
    (hs : s = 0 ∨ s = 1) (hok : insert_key_gates b wires n s rand = .ok b2) :
    b2.key.length = b.key.length + n :=
  igGo_key_growth hs n 0 b b2 hok

/-- Witness for C2 at the dropped-gate call. -/
theorem C2_witness : andBenchDropped.key.length = andBench.key.length + 1 :=
  C2_key_grows_despite_drops andBench ["x"] 1 0 (fun _ => true) andBenchDropped
    (Or.inl rfl) (by rfl)

/-! ## Claim C3 -/

/-- C3 counterexample: the edge candidate `a->o` is processed (operand `a`
of `o` is rewired to the new signal), yet `a` is NOT added to
`changed_signals` — Case 1 never marks wires as rewired. -/
theorem C3_counterexample :
    okBench (insert_key_gates andBench ["a->o"] 1 0 (fun _ => true)) = some andBenchLocked ∧
    "a" ∉ andBenchLocked.changed_signals ∧
    (∃ op ∈ andBenchLocked.ops, op.assignee = "o" ∧ "GA0gat" ∈ op.operands) := by
  exact ⟨by rfl, by decide, by decide⟩

/-- C3 (amended): processing a directed-edge candidate `A->B` whose
producer `A` is not yet in the rewired set leaves `changed_signals`
entirely unchanged — only the bare-wire path (Case 2) marks wires as
rewired, so the code does not maintain the claimed invariant for edges. -/
theorem C3_edge_candidate_not_marked
    (b : Bench) (w : String) (s : Nat) (rand : Nat → Bool) (b2 : Bench)
    (h2 : 2 ≤ (splitArrow w).length)
    (hnc : (splitArrow w).headD "" ∉ b.changed_signals)
    (hok : insert_key_gates b [w] 1 s rand = .ok b2) :
    b2.changed_signals = b.changed_signals := by
  have hone : insertOne b w (rand 0) s = .ok b2 := by
    match h : insertOne b w (rand 0) s with
    | .error b1 =>
        rw [show insert_key_gates b [w] 1 s rand = .error b1 from by
          simp [insert_key_gates, igGo, h]] at hok
        exact absurd hok (by simp)
    | .ok b1 =>
        rw [show insert_key_gates b [w] 1 s rand = .ok b1 from by
          simp [insert_key_gates, igGo, h]] at hok
        exact hok
  rw [insertOne_case1_eq b w (rand 0) s ⟨h2, hnc⟩] at hone
  match hgo : case1Go ((splitArrow w).headD "") ((splitArrow w).getD 1 "")
      (gaName b.signals.length) b.ops 0 none with
  | .error t =>
      rw [hgo] at hone
      exact absurd hone (by simp)
  | .ok r =>
      rw [hgo] at hone
      have hb2 : b2 = { b with
          inputs := b.inputs ++ [kName b.key.length],
          signals := b.signals ++ [gaName b.signals.length],
          key := pyNewKey b.key (rand 0) s,
          ops := insertAt r.2 (⟨gaName b.signals.length, if rand 0 then 7 else 8,
            [(splitArrow w).headD "", kName b.key.length]⟩ : LogicOp) r.1 } := by
        have := congrArg (fun x : Except Bench Bench =>
          match x with | .ok v => v | .error _ => b2) hone
        simpa using this.symm
      rw [hb2]

/-- Witness for C3 at the concrete edge insertion. -/
theorem C3_witness : andBenchLocked.changed_signals = andBench.changed_signals :=
  C3_edge_candidate_not_marked andBench "a->o" 0 (fun _ => true) andBenchLocked
    (by decide) (by decide) (by rfl)

/-! ## Claim C4 -/

/-- C4 counterexample: for the bare candidate `a` and the operation
`B = AND(a, a)`, only the FIRST operand occurrence is replaced: the
rewired operation still reads `a` in its second position. -/
theorem C4_counterexample :
    okBench (insert_key_gates dupBench ["a"] 1 0 (fun _ => true)) = some dupBenchLocked ∧
    (∃ op ∈ dupBenchLocked.ops, op.assignee = "B" ∧ "a" ∈ op.operands) := by
  exact ⟨by rfl, by decide⟩

/-- C4 (amended): a bare-wire candidate (no `->`, or an already-rewired
producer) replaces the FIRST operand occurrence of `A` in each operation
containing `A` (scanning all operations), leaving any further duplicate
occurrences inside the same operand list untouched; the new gate is
inserted before the first such operation, or dropped when none exists. -/
theorem C4_first_occurrence_per_op
    (b : Bench) (w : String) (s : Nat) (rand : Nat → Bool) (b2 : Bench)
    (hc : ¬ (2 ≤ (splitArrow w).length ∧ (splitArrow w).headD "" ∉ b.changed_signals))
    (hok : insert_key_gates b [w] 1 s rand = .ok b2) :
    ((∀ op ∈ b.ops, (splitArrow w).headD "" ∉ op.operands) ∧ b2.ops = b.ops) ∨
    (∃ pre hd tl, b.ops = pre ++ hd :: tl ∧
      (∀ op ∈ pre, (splitArrow w).headD "" ∉ op.operands) ∧
      (splitArrow w).headD "" ∈ hd.operands ∧
      b2.ops = pre ++ (⟨gaName b.signals.length, if rand 0 then 7 else 8,
        [(splitArrow w).headD "", kName b.key.length]⟩ : LogicOp) ::
        rewriteFirstAll ((splitArrow w).headD "") (gaName b.signals.length) (hd :: tl)) := by
  have hone : insertOne b w (rand 0) s = .ok b2 := by
    match h : insertOne b w (rand 0) s with
    | .error b1 =>
        rw [show insert_key_gates b [w] 1 s rand = .error b1 from by
          simp [insert_key_gates, igGo, h]] at hok
        exact absurd hok (by simp)
    | .ok b1 =>
        rw [show insert_key_gates b [w] 1 s rand = .ok b1 from by
          simp [insert_key_gates, igGo, h]] at hok
        exact hok
  rw [insertOne_case2_eq b w (rand 0) s hc] at hone
  have hb2 : b2 = { b with
      inputs := b.inputs ++ [kName b.key.length],
      signals := b.signals ++ [gaName b.signals.length],
      key := pyNewKey b.key (rand 0) s,
      changed_signals := b.changed_signals ++
        (case2Go ((splitArrow w).headD "") (gaName b.signals.length) b.ops 0 none).2.1,
      ops := insertAt
        (case2Go ((splitArrow w).headD "") (gaName b.signals.length) b.ops 0 none).2.2
        (⟨gaName b.signals.length, if rand 0 then 7 else 8,
          [(splitArrow w).headD "", kName b.key.length]⟩ : LogicOp)
        (case2Go ((splitArrow w).headD "") (gaName b.signals.length) b.ops 0 none).1 } := by
    have := congrArg (fun x : Except Bench Bench =>
      match x with | .ok v => v | .error _ => b2) hone
    simpa using this.symm
  rcases exists_first_split (fun op => (splitArrow w).headD "" ∈ op.operands) b.ops with
    hnm | ⟨pre, hd, tl, heq, hpre, hhd⟩
  · left
    refine ⟨hnm, ?_⟩
    have hops : b2.ops = b.ops := by
      rw [hb2, show (case2Go ((splitArrow w).headD "") (gaName b.signals.length) b.ops 0 none)
        = (b.ops, [], none) from case2Go_nomatch _ _ hnm 0]
      rfl
    exact hops
  · right
    refine ⟨pre, hd, tl, heq, hpre, hhd, ?_⟩
    have hops : b2.ops = List.insertIdx (0 + pre.length)
        (⟨gaName b.signals.length, if rand 0 then 7 else 8,
          [(splitArrow w).headD "", kName b.key.length]⟩ : LogicOp)
        (pre ++ rewriteFirstAll ((splitArrow w).headD "")
          (gaName b.signals.length) (hd :: tl)) := by
      rw [hb2, show (case2Go ((splitArrow w).headD "") (gaName b.signals.length) b.ops 0 none)
        = (pre ++ rewriteFirstAll ((splitArrow w).headD "") (gaName b.signals.length) (hd :: tl),
           List.replicate ((hd :: tl).countP
             (fun op => decide ((splitArrow w).headD "" ∈ op.operands))) ((splitArrow w).headD ""),
           some (0 + pre.length)) from by
        rw [heq]; exact case2Go_split _ _ hd tl hhd pre hpre 0]
      rfl
    rw [hops, show (0 : Nat) + pre.length = pre.length by omega,
      insertIdx_decomp _ _ _ (by simp), List.take_left, List.drop_left]

/-- Witness for C4 at the duplicate-operand netlist. -/
theorem C4_witness :
    ((∀ op ∈ dupBench.ops, (splitArrow "a").headD "" ∉ op.operands) ∧
      dupBenchLocked.ops = dupBench.ops) ∨
    (∃ pre hd tl, dupBench.ops = pre ++ hd :: tl ∧
      (∀ op ∈ pre, (splitArrow "a").headD "" ∉ op.operands) ∧
      (splitArrow "a").headD "" ∈ hd.operands ∧
      dupBenchLocked.ops = pre ++ (⟨gaName dupBench.signals.length,
        if (fun _ : Nat => true) 0 then 7 else 8,
        [(splitArrow "a").headD "", kName dupBench.key.length]⟩ : LogicOp) ::
        rewriteFirstAll ((splitArrow "a").headD "")
          (gaName dupBench.signals.length) (hd :: tl)) :=
  C4_first_occurrence_per_op dupBench "a" 0 (fun _ => true) dupBenchLocked
    (by decide) (by rfl)

/-! ## Claim C5 -/

/-- C5 counterexample: `insert_key_gates(["a"], 2, 0)` on the AND netlist
does fail (IndexError), but only AFTER mutating the netlist: at the crash a
key bit has been recorded, a key input and a signal have been declared, and
a key gate has been spliced into the operations. -/
theorem C5_counterexample :
    errBench (insert_key_gates andBench ["a"] 2 0 (fun _ => true)) = some andBenchCrash ∧
    andBenchCrash.key ≠ andBench.key ∧
    andBenchCrash.inputs ≠ andBench.inputs ∧
    andBenchCrash.ops ≠ andBench.ops := by
  exact ⟨by rfl, by decide, by decide, by decide⟩

/-- C5 (amended): when `len(candidates) < count` the message printed by
`error(...)` does not abort the call; the loop still runs and the call
ultimately fails with an uncaught exception (IndexError on `wires[i]`, or
an earlier ValueError), never returning normally — but mutations performed
before the exception persist on the netlist. -/
theorem C5_short_candidates_still_fail
    (b : Bench) (wires : List String) (n s : Nat) (rand : Nat → Bool)
    (hlt : wires.length < n) :
    ∃ st, insert_key_gates b wires n s rand = .error st :=
  igGo_short_err n 0 b (by omega) (by omega)

/-- Witness for C5 at the concrete two-bit request over one candidate. -/
theorem C5_witness :
    ∃ st, insert_key_gates andBench ["a"] 2 0 (fun _ => true) = .error st :=
  C5_short_candidates_still_fail andBench ["a"] 2 0 (fun _ => true) (by decide)

/-! ## Claim C10 -/

/-- C10 counterexample: a call with `count = 2 ≤ len(candidates)` whose
first candidate raises the Case-1 ValueError appends only ONE key input and
one signal before dying, not `count` of each. -/
theorem C10_counterexample :
    errBench (insert_key_gates bogusEdgeBench ["A->B", "E"] 2 0 (fun _ => true))
      = some bogusEdgeCrash ∧
    bogusEdgeCrash.inputs.length = bogusEdgeBench.inputs.length + 1 ∧
    bogusEdgeCrash.inputs.length ≠ bogusEdgeBench.inputs.length + 2 ∧
    bogusEdgeCrash.signals.length ≠ bogusEdgeBench.signals.length + 2 := by
  exact ⟨by rfl, by decide, by decide, by decide⟩

/-- C10 (amended): every call of `insert_key_gates` that returns normally
appends exactly `count` key-input names to `inputs` and exactly `count`
signal names to `signals` (both as suffix extensions), and leaves `outputs`
unchanged — including candidates whose gate was dropped, which still leave
a declared but unconnected key input and signal behind. -/
theorem C10_io_growth_on_success
    (b : Bench) (wires : List String) (n s : Nat) (rand : Nat → Bool) (b2 : Bench)
    (hok : insert_key_gates b wires n s rand = .ok b2) :
    b2.inputs.length = b.inputs.length + n ∧
    b2.signals.length = b.signals.length + n ∧
    b2.outputs = b.outputs ∧
    b.inputs.IsPrefix b2.inputs ∧
    b.signals.IsPrefix b2.signals :=
  igGo_io_growth n 0 b b2 hok

/-- Witness for C10 at the dropped-gate call: the declared key input and
signal remain although the gate itself was dropped. -/
theorem C10_witness :
    andBenchDropped.inputs.length = andBench.inputs.length + 1 ∧
    andBenchDropped.signals.length = andBench.signals.length + 1 ∧
    andBenchDropped.outputs = andBench.outputs ∧
    andBench.inputs.IsPrefix andBenchDropped.inputs ∧
    andBench.signals.IsPrefix andBenchDropped.signals :=
  C10_io_growth_on_success andBench ["x"] 1 0 (fun _ => true) andBenchDropped (by rfl)

/-! ## Claim C8 -/

/-- C8 (code bug): parsing a netlist whose DFF operation is not the LAST
assignment yields `includes_dff = false`, although a DFF operation exists:
the loop in `from_file` re-assigns `includes_dff = False` on every
iteration, so the flag only records whether the final parsed operation is
a DFF, contradicting the documented meaning of `has_sequential_element`. -/
theorem C8_dff_flag_only_sees_last_op :
    ((from_text "t" "# t\nINPUT(a)\nINPUT(b)\nOUTPUT(o)\nd = DFF(a)\no = AND(d, b)").map
        (fun b => b.includes_dff)) = some false ∧
    ((from_text "t" "# t\nINPUT(a)\nINPUT(b)\nOUTPUT(o)\nd = DFF(a)\no = AND(d, b)").map
        (fun b => b.ops.any (fun op => op.operation == 5))) = some true ∧
    ((from_text "t" "# t\nINPUT(a)\nOUTPUT(o)\no = DFF(a)").map
        (fun b => b.includes_dff)) = some true := by
  exact ⟨by rfl, by rfl, by rfl⟩

/-! ## Claim C9 -/

/-- C9 counterexample: with 4 primary inputs, `range(floor(4/2), 4)` sweeps
only the sizes 2 and 3 — the full input width 4 is never evaluated, because
the Python `range` excludes its upper bound. -/
theorem C9_counterexample :
    hammingSweep 4 = [2, 3] ∧ 4 ∉ hammingSweep 4 ∧
    get_best_hamming 4 (fun _ => 0) = [2, 3] ∧ 4 ∉ get_best_hamming 4 (fun _ => 0) := by
  have h3 : get_best_hamming 4 (fun _ => 0) = [2, 3] := by
    norm_num [get_best_hamming, hammingSweep, List.range',
      List.insertionSort, List.orderedInsert]
  exact ⟨by rfl, by decide, h3, by rw [h3]; decide⟩

lemma pair_sublist_of_lt : ∀ {l : List Nat}, l.Pairwise (fun a b => a < b) →
    ∀ {a b : Nat}, a ∈ l → b ∈ l → a < b → [a, b].Sublist l := by
  intro l
  induction l with
  | nil => intro _ a b ha; simp at ha
  | cons x t ih =>
      intro hs a b ha hb hab
      rcases List.mem_cons.mp ha with rfl | hat
      · rcases List.mem_cons.mp hb with rfl | hbt
        · omega
        · exact List.Sublist.cons₂ a (List.singleton_sublist.mpr hbt)
      · rcases List.mem_cons.mp hb with rfl | hbt
        · have := List.rel_of_pairwise_cons hs hat
          omega
        · exact List.Sublist.cons x (ih (List.pairwise_cons.mp hs).2 hat hbt hab)

/-- C9 (amended): the optimizer evaluates exactly the candidate key sizes
from `floor(inputs/2)` up to but EXCLUDING the full input width, and the
first entry of its result is a swept size whose recorded deviation
`|result − 0.5|` is minimal, ties between equal deviations broken in favor
of the smaller key size (stability of Python's sort over the
insertion-ordered dict). -/
theorem C9_sweep_and_selection (n : Nat) (hres : Nat → ℚ) (hn : 1 ≤ n) :
    (∀ k, k ∈ hammingSweep n ↔ (n / 2 ≤ k ∧ k < n)) ∧
    (∃ best rest, get_best_hamming n hres = best :: rest ∧
      best ∈ hammingSweep n ∧
      (∀ k ∈ hammingSweep n, |hres best - 1/2| ≤ |hres k - 1/2|) ∧
      (∀ k ∈ hammingSweep n, |hres k - 1/2| = |hres best - 1/2| → best ≤ k)) := by
  have hmem : ∀ k, k ∈ hammingSweep n ↔ (n / 2 ≤ k ∧ k < n) := by
    intro k
    rw [hammingSweep, List.mem_range']
    constructor
    · rintro ⟨i, hi, rfl⟩; omega
    · rintro ⟨h1, h2⟩; exact ⟨k - n / 2, by omega, by omega⟩
  refine ⟨hmem, ?_⟩
  haveI hTot : IsTotal (Nat × ℚ) (fun a b => a.2 ≤ b.2) := ⟨fun a b => le_total a.2 b.2⟩
  haveI hTrans : IsTrans (Nat × ℚ) (fun a b => a.2 ≤ b.2) := ⟨fun a b c => le_trans⟩
  have hswp : (hammingSweep n).Pairwise (fun a b => a < b) := List.pairwise_lt_range' _ _
  have hswnd : (hammingSweep n).Nodup := hswp.imp (fun h => Nat.ne_of_lt h)
  have hinj : Function.Injective (fun k : Nat => (k, |hres k - 1/2|)) := by
    intro a b h
    exact congrArg Prod.fst h
  have hlnd : ((hammingSweep n).map (fun k => (k, |hres k - 1/2|))).Nodup :=
    hswnd.map hinj
  have hperm := List.perm_insertionSort (fun a b : Nat × ℚ => a.2 ≤ b.2)
    ((hammingSweep n).map (fun k => (k, |hres k - 1/2|)))
  have hsortnd : (((hammingSweep n).map
      (fun k => (k, |hres k - 1/2|))).insertionSort (fun a b => a.2 ≤ b.2)).Nodup :=
    hperm.nodup_iff.mpr hlnd
  have hsorted := List.sorted_insertionSort (fun a b : Nat × ℚ => a.2 ≤ b.2)
    ((hammingSweep n).map (fun k => (k, |hres k - 1/2|)))
  have hlen : (((hammingSweep n).map
      (fun k => (k, |hres k - 1/2|))).insertionSort (fun a b => a.2 ≤ b.2)).length =
      n - n / 2 := by
    rw [hperm.length_eq, List.length_map, hammingSweep, List.length_range']
  match hsrt : ((hammingSweep n).map
      (fun k => (k, |hres k - 1/2|))).insertionSort (fun a b => a.2 ≤ b.2) with
  | [] =>
      rw [hsrt] at hlen
      simp at hlen
      omega
  | p :: rest2 =>
      have hpmem : p ∈ (hammingSweep n).map (fun k => (k, |hres k - 1/2|)) := by
        rw [← hperm.mem_iff, hsrt]
        simp
      obtain ⟨k0, hk0, hpk⟩ := List.mem_map.mp hpmem
      have hp2 : p.2 = |hres p.1 - 1/2| := by rw [← hpk]
      have hp1 : p.1 ∈ hammingSweep n := by rw [← hpk]; exact hk0
      refine ⟨p.1, rest2.map (fun q => q.1), ?_, hp1, ?_, ?_⟩
      · rw [get_best_hamming, hsrt]
        rfl
      · intro k hk
        have hkmem : (k, |hres k - 1/2|) ∈ (hammingSweep n).map
            (fun j => (j, |hres j - 1/2|)) := List.mem_map.mpr ⟨k, hk, rfl⟩
        rw [← hperm.mem_iff, hsrt] at hkmem
        rcases List.mem_cons.mp hkmem with heq | htail
        · rw [show k = p.1 from congrArg Prod.fst heq]
        · have := List.rel_of_sorted_cons (hsrt ▸ hsorted) _ htail
          rw [← hp2]
          exact this
      · intro k hk htie
        by_contra hlt
        have hklt : k < p.1 := by omega
        have hsub : [k, p.1].Sublist (hammingSweep n) :=
          pair_sublist_of_lt hswp hk hp1 hklt
        have hsub2 : [(k, |hres k - 1/2|), (p.1, |hres p.1 - 1/2|)].Sublist
            ((hammingSweep n).map (fun j => (j, |hres j - 1/2|))) := by
          have := hsub.map (fun j => (j, |hres j - 1/2|))
          simpa using this
        have hpair : [(k, |hres k - 1/2|), (p.1, |hres p.1 - 1/2|)].Sublist
            (((hammingSweep n).map (fun j => (j, |hres j - 1/2|))).insertionSort
              (fun a b : Nat × ℚ => a.2 ≤ b.2)) :=
          List.pair_sublist_insertionSort (le_of_eq htie) hsub2
        rw [hsrt] at hpair
        have hpeq : (p.1, |hres p.1 - 1/2|) = p := by
          rw [← hp2]
        rw [hpeq] at hpair
        rcases List.sublist_cons_iff.mp hpair with htl | ⟨r, hr, hrtl⟩
        · have hmemp : p ∈ rest2 := (htl.subset) (by simp)
          exact (List.nodup_cons.mp (hsrt ▸ hsortnd)).1 hmemp
        · have : (k, |hres k - 1/2|) = p := by
            have := congrArg (fun l => l.headD p) hr
            simpa using this
          have : k = p.1 := congrArg Prod.fst this
          omega

/-! ### Fault-ranking dictionary lemmas (C6, C7) -/

lemma dictGet_dictSet_self : ∀ (d : FDict) (k : String) (v : Int),
    dictGet (dictSet d k v) k = some v := by
  intro d
  induction d with
  | nil => intro k v; simp [dictSet, dictGet]
  | cons p rest ih =>
      intro k v
      obtain ⟨k1, v1⟩ := p
      by_cases h : k1 = k
      · simp [dictSet, dictGet, h]
      · simp [dictSet, dictGet, h, ih]

lemma dictGet_dictSet_ne : ∀ (d : FDict) {k k' : String} (v : Int), k' ≠ k →
    dictGet (dictSet d k v) k' = dictGet d k' := by
  intro d
  induction d with
  | nil =>
      intro k k' v h
      simp [dictSet, dictGet, Ne.symm h]
  | cons p rest ih =>
      intro k k' v h
      obtain ⟨k1, v1⟩ := p
      by_cases h1 : k1 = k
      · subst h1
        simp [dictSet, dictGet, Ne.symm h]
      · by_cases h2 : k1 = k'
        · simp [dictSet, dictGet, h1, h2, h]
        · simp [dictSet, dictGet, h1, h2, ih v h]

lemma dictGet_eq_none : ∀ {d : FDict} {k : String},
    dictGet d k = none ↔ k ∉ d.map (fun p => p.1) := by
  intro d
  induction d with
  | nil => intro k; simp [dictGet]
  | cons p rest ih =>
      intro k
      obtain ⟨k1, v1⟩ := p
      by_cases h : k1 = k
      · subst h
        simp [dictGet]
      · rw [show dictGet ((k1, v1) :: rest) k = dictGet rest k from by
          simp [dictGet, h], ih]
        constructor
        · intro hn hm
          rcases List.mem_cons.mp hm with he | hm2
          · exact h he.symm
          · exact hn hm2
        · intro hn hm
          exact hn (List.mem_cons_of_mem _ hm)

lemma map_fst_dictSet_mem : ∀ (d : FDict) {k : String} (v : Int),
    k ∈ d.map (fun p => p.1) →
    (dictSet d k v).map (fun p => p.1) = d.map (fun p => p.1) := by
  intro d
  induction d with
  | nil => intro k v h; simp at h
  | cons p rest ih =>
      intro k v h
      obtain ⟨k1, v1⟩ := p
      by_cases h1 : k1 = k
      · subst h1
        simp [dictSet]
      · have hm : k ∈ rest.map (fun p => p.1) := by
          rcases List.mem_cons.mp h with he | hm
          · exact absurd he.symm h1
          · exact hm
        simp [dictSet, h1, ih v hm]

lemma map_fst_dictSet_notMem : ∀ (d : FDict) {k : String} (v : Int),
    k ∉ d.map (fun p => p.1) →
    (dictSet d k v).map (fun p => p.1) = d.map (fun p => p.1) ++ [k] := by
  intro d
  induction d with
  | nil => intro k v _; simp [dictSet]
  | cons p rest ih =>
      intro k v h
      obtain ⟨k1, v1⟩ := p
      have h1 : k1 ≠ k := by
        intro he
        exact h (by simp [he])
      have hm : k ∉ rest.map (fun p => p.1) := by
        intro hm2
        exact h (List.mem_cons_of_mem _ hm2)
      simp [dictSet, h1, ih v hm]

lemma mem_dictGet : ∀ {d : FDict}, (d.map (fun p => p.1)).Nodup →
    ∀ {p : String × Int}, p ∈ d → dictGet d p.1 = some p.2 := by
  intro d
  induction d with
  | nil => intro _ p hp; cases hp
  | cons q rest ih =>
      intro hnd p hp
      obtain ⟨k1, v1⟩ := q
      simp only [List.map_cons] at hnd
      rcases List.mem_cons.mp hp with he | hm
      · rw [he]
        simp [dictGet]
      · have hk : k1 ≠ p.1 := by
          intro he
          have hmem : p.1 ∈ rest.map (fun p => p.1) := List.mem_map.mpr ⟨p, hm, rfl⟩
          exact (List.nodup_cons.mp hnd).1 (he ▸ hmem)
        simp [dictGet, hk, ih (List.nodup_cons.mp hnd).2 hm]

lemma map_fst_bump (d : FDict) (w : String) :
    (bump d w).map (fun p => p.1) = dedupStep (d.map (fun p => p.1)) w := by
  unfold bump dedupStep
  cases hg : dictGet d w with
  | none =>
      have hnm : w ∉ d.map (fun p => p.1) := dictGet_eq_none.mp hg
      rw [if_neg hnm, map_fst_dictSet_notMem d 1 hnm]
  | some c =>
      have hm : w ∈ d.map (fun p => p.1) := by
        by_contra hn
        rw [dictGet_eq_none.mpr hn] at hg
        cases hg
      rw [if_pos hm]
      dsimp only
      by_cases hc : c = 0
      · rw [if_neg (by simp [hc]), map_fst_dictSet_mem d 1 hm]
      · rw [if_pos hc, map_fst_dictSet_mem d (c + 1) hm]

lemma dictGet_bump_ne (d : FDict) {w w' : String} (h : w' ≠ w) :
    dictGet (bump d w) w' = dictGet d w' := by
  unfold bump
  cases hg : dictGet d w with
  | none => exact dictGet_dictSet_ne d 1 h
  | some c =>
      dsimp only
      by_cases hc : c = 0
      · rw [if_neg (by simp [hc])]
        exact dictGet_dictSet_ne d 1 h
      · rw [if_pos hc]
        exact dictGet_dictSet_ne d (c + 1) h

lemma dictGet_bump_self {d : FDict} {w : String} {c : Nat}
    (h : (c = 0 ∧ dictGet d w = none) ∨ (1 ≤ c ∧ dictGet d w = some (c : Int))) :
    dictGet (bump d w) w = some ((c + 1 : Nat) : Int) := by
  unfold bump
  rcases h with ⟨hc, hn⟩ | ⟨hc, hs⟩
  · rw [hn]
    dsimp only
    rw [dictGet_dictSet_self, hc]
    norm_num
  · rw [hs]
    dsimp only
    rw [if_pos (show (c : Int) ≠ 0 by exact_mod_cast Nat.one_le_iff_ne_zero.mp hc),
      dictGet_dictSet_self]
    norm_num

/-! ### `bumpAll` characterisation -/

lemma dictGet_bumpAll_ne {w : String} : ∀ {ws : List String} (d : FDict),
    w ∉ ws → dictGet (bumpAll d ws) w = dictGet d w := by
  intro ws
  induction ws with
  | nil => intro d _; rfl
  | cons w' ws ih =>
      intro d h
      rw [List.mem_cons, not_or] at h
      calc dictGet (bumpAll (bump d w') ws) w
          = dictGet (bump d w') w := ih _ h.2
        _ = dictGet d w := dictGet_bump_ne d (fun he => h.1 he)

lemma dictGet_bumpAll_count {w : String} : ∀ {ws : List String} (d : FDict) (c : Nat),
    (c = 0 ∧ dictGet d w = none) ∨ (1 ≤ c ∧ dictGet d w = some (c : Int)) →
    (c + ws.count w = 0 ∧ dictGet (bumpAll d ws) w = none) ∨
      (1 ≤ c + ws.count w ∧
        dictGet (bumpAll d ws) w = some ((c + ws.count w : Nat) : Int)) := by
  intro ws
  induction ws with
  | nil =>
      intro d c h
      simpa using h
  | cons w' ws ih =>
      intro d c h
      by_cases hw : w' = w
      · subst hw
        have hb : dictGet (bump d w') w' = some ((c + 1 : Nat) : Int) :=
          dictGet_bump_self h
        have hcnt : (w' :: ws).count w' = ws.count w' + 1 := by
          simp [List.count_cons]
        have hrec := ih (bump d w') (c + 1) (Or.inr ⟨Nat.le_add_left 1 c, hb⟩)
        rcases hrec with ⟨h0, _⟩ | ⟨h1, hres⟩
        · omega
        · refine Or.inr ⟨by omega, ?_⟩
          rw [show bumpAll d (w' :: ws) = bumpAll (bump d w') ws from rfl, hres,
            hcnt, show c + (ws.count w' + 1) = c + 1 + ws.count w' from by omega]

      · have hne : dictGet (bump d w') w = dictGet d w :=
          dictGet_bump_ne d (fun he => hw he.symm)
        have hcnt : (w' :: ws).count w = ws.count w := by
          simp [List.count_cons, hw]
        have h' : (c = 0 ∧ dictGet (bump d w') w = none) ∨
            (1 ≤ c ∧ dictGet (bump d w') w = some (c : Int)) := by
          rw [hne]
          exact h
        have hrec := ih (bump d w') c h'
        rw [show bumpAll d (w' :: ws) = bumpAll (bump d w') ws from rfl, hcnt]
        exact hrec

lemma map_fst_bumpAll : ∀ {ws : List String} (d : FDict),
    (bumpAll d ws).map (fun p => p.1) =
      ws.foldl dedupStep (d.map (fun p => p.1)) := by
  intro ws
  induction ws with
  | nil => intro d; rfl
  | cons w' ws ih =>
      intro d
      rw [show bumpAll d (w' :: ws) = bumpAll (bump d w') ws from rfl, ih (bump d w'),
        map_fst_bump, List.foldl_cons]

/-! ### First-seen deduplication lemmas -/

lemma mem_foldl_dedupStep : ∀ {ws : List String} (acc : List String) (x : String),
    x ∈ ws.foldl dedupStep acc ↔ x ∈ acc ∨ x ∈ ws := by
  intro ws
  induction ws with
  | nil => intro acc x; simp
  | cons w ws ih =>
      intro acc x
      rw [List.foldl_cons, ih]
      unfold dedupStep
      by_cases h : w ∈ acc
      · rw [if_pos h]
        constructor
        · rintro (h1 | h1)
          · exact Or.inl h1
          · exact Or.inr (List.mem_cons_of_mem _ h1)
        · rintro (h1 | h1)
          · exact Or.inl h1
          · rcases List.mem_cons.mp h1 with he | h2
            · exact Or.inl (he ▸ h)
            · exact Or.inr h2
      · rw [if_neg h]
        simp only [List.mem_append, List.mem_singleton, List.mem_cons]
        tauto

lemma nodup_foldl_dedupStep : ∀ {ws : List String} (acc : List String),
    acc.Nodup → (ws.foldl dedupStep acc).Nodup := by
  intro ws
  induction ws with
  | nil => intro acc h; exact h
  | cons w ws ih =>
      intro acc hacc
      rw [List.foldl_cons]
      by_cases h : w ∈ acc
      · rw [dedupStep, if_pos h]
        exact ih _ hacc
      · rw [dedupStep, if_neg h]
        refine ih _ ?_
        rw [List.nodup_append]
        exact ⟨hacc, List.nodup_singleton w,
          fun a ha hb => h (by rwa [List.mem_singleton.mp hb] at ha)⟩

lemma foldl_dedupStep_zero : ∀ {ws : List String} (acc : List String),
    "0" ∉ ws → ws.foldl dedupStep ("0" :: acc) = "0" :: ws.foldl dedupStep acc := by
  intro ws
  induction ws with
  | nil => intro acc _; rfl
  | cons w ws ih =>
      intro acc h0
      rw [List.mem_cons, not_or] at h0
      have hstep : dedupStep ("0" :: acc) w = "0" :: dedupStep acc w := by
        unfold dedupStep
        by_cases h : w ∈ acc
        · rw [if_pos h, if_pos (List.mem_cons_of_mem _ h)]
        · rw [if_neg h, if_neg (by
            intro hm
            rcases List.mem_cons.mp hm with he | hm2
            · exact h0.1 he.symm
            · exact h hm2)]
          rfl
      rw [List.foldl_cons, List.foldl_cons, hstep, ih _ h0.2]

/-! ### Ordering facts about the ranking list -/

lemma pair_sublist_total {α : Type} : ∀ {l : List α} {a b : α}, a ∈ l → b ∈ l → a ≠ b →
    [a, b].Sublist l ∨ [b, a].Sublist l := by
  intro l
  induction l with
  | nil => intro a b ha _ _; cases ha
  | cons x l ih =>
      intro a b ha hb hne
      rcases List.mem_cons.mp ha with he | ha2
      · subst he
        rcases List.mem_cons.mp hb with he2 | hb2
        · exact absurd he2.symm hne
        · exact Or.inl (List.Sublist.cons₂ a (List.singleton_sublist.mpr hb2))
      · rcases List.mem_cons.mp hb with he2 | hb2
        · subst he2
          exact Or.inr (List.Sublist.cons₂ b (List.singleton_sublist.mpr ha2))
        · rcases ih ha2 hb2 hne with h | h
          · exact Or.inl (h.cons x)
          · exact Or.inr (h.cons x)

lemma rankSpec_of_notMem {ws : List String} (h0 : "0" ∉ ws) : RankSpec ws := by
  haveI hTot : IsTotal (String × Int) (fun a b => b.2 ≤ a.2) :=
    ⟨fun a b => le_total b.2 a.2⟩
  haveI hTrans : IsTrans (String × Int) (fun a b => b.2 ≤ a.2) :=
    ⟨fun a b c h1 h2 => le_trans h2 h1⟩
  have hkeys : (bumpAll [("0", -1)] ws).map (fun p => p.1) = "0" :: dedupFirst ws := by
    rw [map_fst_bumpAll]
    exact foldl_dedupStep_zero [] h0
  have h0dedup : "0" ∉ dedupFirst ws := by
    intro hm
    rcases (mem_foldl_dedupStep [] "0").mp hm with h | h
    · cases h
    · exact h0 h
  have hmemdedup : ∀ x, x ∈ dedupFirst ws ↔ x ∈ ws := by
    intro x
    rw [dedupFirst, mem_foldl_dedupStep]
    simp
  have hnk : ((bumpAll [("0", -1)] ws).map (fun p => p.1)).Nodup := by
    rw [hkeys]
    exact List.nodup_cons.mpr ⟨h0dedup, nodup_foldl_dedupStep [] List.nodup_nil⟩
  have hval : ∀ p ∈ bumpAll [("0", -1)] ws, p.2 = wireVal ws p.1 := by
    intro p hp
    have hg : dictGet (bumpAll [("0", -1)] ws) p.1 = some p.2 := mem_dictGet hnk hp
    by_cases hz : p.1 = "0"
    · have hgz : dictGet (bumpAll [("0", -1)] ws) p.1 = some (-1) := by
        rw [hz, dictGet_bumpAll_ne _ h0]
        rfl
      have hp2 : p.2 = -1 := Option.some_inj.mp (hg.symm.trans hgz)
      rw [wireVal, if_pos hz, hp2]
    · have hcount := @dictGet_bumpAll_count p.1 ws [("0", -1)] 0
        (Or.inl ⟨rfl, by simp [dictGet, Ne.symm hz]⟩)
      rcases hcount with ⟨_, hn⟩ | ⟨_, hs⟩
      · rw [hg] at hn
        cases hn
      · have hp2 : p.2 = ((ws.count p.1 : Nat) : Int) := by
          have := Option.some_inj.mp (hg.symm.trans hs)
          simpa using this
        rw [wireVal, if_neg hz, hp2]
  have hperm := List.perm_insertionSort (fun a b : String × Int => b.2 ≤ a.2)
    (bumpAll [("0", -1)] ws)
  have hsorted : ((bumpAll [("0", -1)] ws).insertionSort
      (fun a b => b.2 ≤ a.2)).Pairwise (fun a b : String × Int => b.2 ≤ a.2) :=
    List.sorted_insertionSort (fun a b : String × Int => b.2 ≤ a.2)
      (bumpAll [("0", -1)] ws)
  have hvalsrt : ∀ p ∈ (bumpAll [("0", -1)] ws).insertionSort (fun a b => b.2 ≤ a.2),
      p.2 = wireVal ws p.1 := by
    intro p hp
    exact hval p (hperm.mem_iff.mp hp)
  have hrank : rankList ws = ((bumpAll [("0", -1)] ws).insertionSort
      (fun a b => b.2 ≤ a.2)).map (fun p => p.1) := rfl
  have hpermfst : List.Perm (((bumpAll [("0", -1)] ws).insertionSort
      (fun a b : String × Int => b.2 ≤ a.2)).map (fun p => p.1))
      ("0" :: dedupFirst ws) := by
    rw [← hkeys]
    exact hperm.map (fun p => p.1)
  have hmem : ∀ x, x ∈ rankList ws ↔ (x = "0" ∨ x ∈ ws) := by
    intro x
    rw [hrank, hpermfst.mem_iff, List.mem_cons, hmemdedup]
  have hnd : (rankList ws).Nodup := by
    have hnk2 := hnk
    rw [hkeys] at hnk2
    rw [hrank]
    exact hpermfst.nodup_iff.mpr hnk2
  have hpairval : (rankList ws).Pairwise (fun a b => wireVal ws b ≤ wireVal ws a) := by
    rw [hrank]
    refine List.pairwise_map.mpr ?_
    refine hsorted.imp_of_mem ?_
    intro a b ha hb hr
    rw [← hvalsrt a ha, ← hvalsrt b hb]
    exact hr
  have hzlast : (rankList ws).Pairwise (fun a b => a = "0" → b = "0") := by
    refine hpairval.imp_of_mem ?_
    intro a b ha hb hr haz
    by_contra hbz
    have hbw : b ∈ ws := ((hmem b).mp hb).resolve_left hbz
    have h1 : (1 : Int) ≤ wireVal ws b := by
      rw [wireVal, if_neg hbz]
      exact_mod_cast List.count_pos_iff.mpr hbw
    have h2 : wireVal ws a = -1 := by rw [wireVal, if_pos haz]
    rw [h2] at hr
    omega
  have hstable : ∀ a b, [a, b].Sublist (dedupFirst ws) → ws.count a = ws.count b →
      [a, b].Sublist (rankList ws) := by
    intro a b hsub hcnt
    have hsubk : [a, b].Sublist ((bumpAll [("0", -1)] ws).map (fun p => p.1)) := by
      rw [hkeys]
      exact hsub.cons "0"
    obtain ⟨l', hl', hmapeq⟩ := List.sublist_map_iff.mp hsubk
    rcases l' with _ | ⟨pa, l''⟩
    · simp at hmapeq
    rcases l'' with _ | ⟨pb, l'''⟩
    · simp at hmapeq
    rcases l''' with _ | ⟨pc, _⟩
    swap
    · simp at hmapeq
    simp only [List.map_cons, List.map_nil, List.cons.injEq, and_true] at hmapeq
    obtain ⟨ha1, hb1⟩ := hmapeq
    have hpa : pa ∈ bumpAll [("0", -1)] ws := hl'.subset (by simp)
    have hpb : pb ∈ bumpAll [("0", -1)] ws := hl'.subset (by simp)
    have hva := hval pa hpa
    have hvb := hval pb hpb
    have haw : a ∈ ws := (hmemdedup a).mp (hsub.subset (by simp))
    have hbw : b ∈ ws := (hmemdedup b).mp (hsub.subset (by simp))
    have haz : a ≠ "0" := fun he => h0 (he ▸ haw)
    have hbz : b ≠ "0" := fun he => h0 (he ▸ hbw)
    have hr : (fun p q : String × Int => q.2 ≤ p.2) pa pb := by
      show pb.2 ≤ pa.2
      rw [hva, hvb, ← ha1, ← hb1, wireVal, wireVal, if_neg haz, if_neg hbz, hcnt]
    have hpairsub : [pa, pb].Sublist ((bumpAll [("0", -1)] ws).insertionSort
        (fun a b : String × Int => b.2 ≤ a.2)) :=
      List.pair_sublist_insertionSort hr hl'
    have hmapped := hpairsub.map (fun p => p.1)
    rw [hrank]
    simpa [← ha1, ← hb1] using hmapped
  have hstrict : ∀ a b, a ∈ rankList ws → b ∈ rankList ws →
      wireVal ws b < wireVal ws a → [a, b].Sublist (rankList ws) := by
    intro a b ha hb hlt
    have hne : a ≠ b := fun he => by rw [he] at hlt; omega
    rcases pair_sublist_total ha hb hne with h | h
    · exact h
    · exfalso
      have hpw := List.Pairwise.sublist h hpairval
      have h1 := (List.pairwise_cons.mp hpw).1 a (List.mem_singleton_self a)
      omega
  exact ⟨hmem, hnd, hpairval, hzlast, hstable, hstrict⟩

/-! ### Factorisation of the fault-report loop -/

lemma scannedLines_cons {line : String} {rest : List String} (h : line ≠ "") :
    scannedLines (line :: rest) = line :: scannedLines rest := by
  simp [scannedLines, List.takeWhile_cons, h]

lemma processLine_skip {outputs : List String} {z o : FDict} {line : String}
    (h : LineSkip outputs line) :
    processLine outputs z o line = some (z, o) := by
  obtain ⟨hne, hcases⟩ := h
  rcases htoks : pyTokens line with _ | ⟨a, tl⟩
  · exact absurd htoks hne
  rw [htoks] at hcases
  simp only [List.headD_cons] at hcases
  by_cases hA : a = "test"
  · simp [processLine, htoks, hA]
  · have hB : a ∈ outputs := hcases.resolve_left hA
    simp [processLine, htoks, hA, hB]

lemma faultLoop_skip (outputs : List String) : ∀ (lines : List String) (z o : FDict),
    (∀ l ∈ scannedLines lines, LineSkip outputs l) →
    faultLoop outputs z o lines = some (z, o) := by
  intro lines
  induction lines with
  | nil => intro z o _; rfl
  | cons line rest ih =>
      intro z o h
      by_cases hline : line = ""
      · subst hline
        simp [faultLoop]
      · have hsc : scannedLines (line :: rest) = line :: scannedLines rest :=
          scannedLines_cons hline
        have hmem : line ∈ scannedLines (line :: rest) := by
          rw [hsc]
          exact List.mem_cons_self _ _
        have hpl : processLine outputs z o line = some (z, o) :=
          processLine_skip (h line hmem)
        have htail : ∀ l ∈ scannedLines rest, LineSkip outputs l := by
          intro l hl
          exact h l (by rw [hsc]; exact List.mem_cons_of_mem _ hl)
        rw [show faultLoop outputs z o (line :: rest) = faultLoop outputs z o rest from by
          simp [faultLoop, hline, hpl]]
        exact ih z o htail

lemma faultLoop_factor (outputs : List String) : ∀ (lines : List String) (z o : FDict),
    (∀ l ∈ scannedLines lines, LineOk outputs l) →
    faultLoop outputs z o lines =
      some (bumpAll z (polWires outputs "/0:" lines),
            bumpAll o (polWires outputs "/1:" lines)) := by
  intro lines
  induction lines with
  | nil => intro z o _; rfl
  | cons line rest ih =>
      intro z o h
      by_cases hline : line = ""
      · subst hline
        have hsc : scannedLines ("" :: rest) = [] := by
          simp [scannedLines, List.takeWhile_cons]
        rw [show faultLoop outputs z o ("" :: rest) = some (z, o) from by
          simp [faultLoop]]
        simp [polWires, hsc, bumpAll]
      · have hsc : scannedLines (line :: rest) = line :: scannedLines rest :=
          scannedLines_cons hline
        have hmem : line ∈ scannedLines (line :: rest) := by
          rw [hsc]
          exact List.mem_cons_self _ _
        have htail : ∀ l ∈ scannedLines rest, LineOk outputs l := by
          intro l hl
          exact h l (by rw [hsc]; exact List.mem_cons_of_mem _ hl)
        obtain ⟨hne, hcases⟩ := h line hmem
        rcases htoks : pyTokens line with _ | ⟨a, tl⟩
        · exact absurd htoks hne
        rw [htoks] at hcases
        simp only [List.headD_cons] at hcases
        have hpw : ∀ m : String, countedWire outputs m line = none →
            polWires outputs m (line :: rest) = polWires outputs m rest := by
          intro m hcw
          rw [polWires, hsc, List.filterMap_cons, hcw]
          rfl
        have hpwc : ∀ (m w : String), countedWire outputs m line = some w →
            polWires outputs m (line :: rest) = w :: polWires outputs m rest := by
          intro m w hcw
          rw [polWires, hsc, List.filterMap_cons, hcw]
          rfl
        have hstep : ∀ z' o', processLine outputs z o line = some (z', o') →
            faultLoop outputs z o (line :: rest) = faultLoop outputs z' o' rest := by
          intro z' o' hpl
          simp [faultLoop, hline, hpl]
        by_cases hA : a = "test"
        · have hpl : processLine outputs z o line = some (z, o) := by
            simp [processLine, htoks, hA]
          have hcw0 : countedWire outputs "/0:" line = none := by
            simp [countedWire, htoks, hA]
          have hcw1 : countedWire outputs "/1:" line = none := by
            simp [countedWire, htoks, hA]
          rw [hstep z o hpl, hpw _ hcw0, hpw _ hcw1]
          exact ih z o htail
        · by_cases hB : a ∈ outputs
          · have hpl : processLine outputs z o line = some (z, o) := by
              simp [processLine, htoks, hA, hB]
            have hcw0 : countedWire outputs "/0:" line = none := by
              simp [countedWire, htoks, hA, hB]
            have hcw1 : countedWire outputs "/1:" line = none := by
              simp [countedWire, htoks, hA, hB]
            rw [hstep z o hpl, hpw _ hcw0, hpw _ hcw1]
            exact ih z o htail
          · have hlen : 3 ≤ (a :: tl).length := by
              rcases hcases with h1 | h1 | h1
              · exact absurd h1 hA
              · exact absurd h1 hB
              · exact h1
            rcases tl with _ | ⟨b, tl2⟩
            · simp at hlen
            rcases tl2 with _ | ⟨c, tl3⟩
            · simp at hlen
            by_cases hC : c = "*"
            · by_cases h0m : b = "/0:"
              · have hpl : processLine outputs z o line = some (bump z a, o) := by
                  simp [processLine, htoks, hA, hB, hC, h0m]
                have hcw0 : countedWire outputs "/0:" line = some a := by
                  simp [countedWire, htoks, hA, hB, hC, h0m]
                have hcw1 : countedWire outputs "/1:" line = none := by
                  simp [countedWire, htoks, hA, hB, hC, h0m,
                    (by decide : ("/0:" : String) ≠ "/1:")]
                rw [hstep _ _ hpl, hpwc _ _ hcw0, hpw _ hcw1,
                  show bumpAll z (a :: polWires outputs "/0:" rest)
                    = bumpAll (bump z a) (polWires outputs "/0:" rest) from rfl]
                exact ih (bump z a) o htail
              · by_cases h1m : b = "/1:"
                · have hpl : processLine outputs z o line = some (z, bump o a) := by
                    simp [processLine, htoks, hA, hB, hC, h0m, h1m]
                  have hcw0 : countedWire outputs "/0:" line = none := by
                    simp [countedWire, htoks, hA, hB, h0m]
                  have hcw1 : countedWire outputs "/1:" line = some a := by
                    simp [countedWire, htoks, hA, hB, hC, h1m]
                  rw [hstep _ _ hpl, hpw _ hcw0, hpwc _ _ hcw1,
                    show bumpAll o (a :: polWires outputs "/1:" rest)
                      = bumpAll (bump o a) (polWires outputs "/1:" rest) from rfl]
                  exact ih z (bump o a) htail
                · have hpl : processLine outputs z o line = some (z, o) := by
                    simp [processLine, htoks, hA, hB, hC, h0m, h1m]
                  have hcw0 : countedWire outputs "/0:" line = none := by
                    simp [countedWire, htoks, hA, hB, h0m]
                  have hcw1 : countedWire outputs "/1:" line = none := by
                    simp [countedWire, htoks, hA, hB, h1m]
                  rw [hstep z o hpl, hpw _ hcw0, hpw _ hcw1]
                  exact ih z o htail
            · have hpl : processLine outputs z o line = some (z, o) := by
                simp [processLine, htoks, hA, hB, hC]
              have hcw0 : countedWire outputs "/0:" line = none := by
                simp [countedWire, htoks, hA, hB, hC]
              have hcw1 : countedWire outputs "/1:" line = none := by
                simp [countedWire, htoks, hA, hB, hC]
              rw [hstep z o hpl, hpw _ hcw0, hpw _ hcw1]
              exact ih z o htail

lemma get_faults_factor (outputs : List String) (faults : String)
    (h : ∀ l ∈ scannedLines (linesOf faults), LineOk outputs l) :
    get_faults outputs faults =
      some (rankList (polWires outputs "/0:" (linesOf faults)),
            rankList (polWires outputs "/1:" (linesOf faults))) := by
  unfold get_faults
  rw [faultLoop_factor outputs (linesOf faults) [("0", -1)] [("0", -1)] h]
  rfl

/-- Witness for C9 at four inputs with identical deviations: the tie is
broken toward the smaller size 2. -/
theorem C9_witness :
    (∀ k, k ∈ hammingSweep 4 ↔ (4 / 2 ≤ k ∧ k < 4)) ∧
    (∃ best rest, get_best_hamming 4 (fun _ => (1 : ℚ) / 2) = best :: rest ∧
      best ∈ hammingSweep 4 ∧
      (∀ k ∈ hammingSweep 4, |(fun _ : Nat => (1 : ℚ) / 2) best - 1/2| ≤
        |(fun _ : Nat => (1 : ℚ) / 2) k - 1/2|) ∧
      (∀ k ∈ hammingSweep 4, |(fun _ : Nat => (1 : ℚ) / 2) k - 1/2| =
        |(fun _ : Nat => (1 : ℚ) / 2) best - 1/2| → best ≤ k)) :=
  C9_sweep_and_selection 4 (fun _ => (1 : ℚ) / 2) (by decide)

/-- Counterexample to C7: the empty fault report, and a report whose lines
all are the header or name primary outputs, both return ranking lists
`["0"]` — the `{"0": -1}` sentinel key survives into the result — so the
lists are never empty, contrary to the claim. -/
theorem C7_counterexample :
    get_faults [] "" = some (["0"], ["0"]) ∧
    get_faults ["G1"] "test results:\nG1 /0: *" = some (["0"], ["0"]) ∧
    (["0"] : List String) ≠ [] :=
  ⟨rfl, rfl, by decide⟩

/-- C7 (amended): for every fault report each of whose scanned lines (the
lines before the first empty line) is skipped — it is the `test` header or
its first token names a primary output — `get_faults` returns without
crashing, but both ranking lists are `["0"]`: the sentinel key seeded into
the count dicts, not the empty list the claim states. -/
theorem C7_skipped_report_gives_sentinel (outputs : List String) (faults : String)
    (h : ∀ l ∈ scannedLines (linesOf faults), LineSkip outputs l) :
    get_faults outputs faults = some (["0"], ["0"]) ∧ (["0"] : List String) ≠ [] := by
  refine ⟨?_, by decide⟩
  unfold get_faults
  rw [faultLoop_skip outputs (linesOf faults) [("0", -1)] [("0", -1)] h]
  rfl

/-- Witness for C7 on a two-line report: a header line plus an output-naming
fault line; the ranker returns the sentinel-only lists. -/
theorem C7_witness :
    (∀ l ∈ scannedLines (linesOf "test results:\nG1 /1: *"), LineSkip ["G1"] l) ∧
    (get_faults ["G1"] "test results:\nG1 /1: *" = some (["0"], ["0"]) ∧
      (["0"] : List String) ≠ []) :=
  ⟨by decide, C7_skipped_report_gives_sentinel ["G1"] "test results:\nG1 /1: *" (by decide)⟩

/-- Counterexample to C6: a report with a single undetected stuck-at-0 fault
on wire `A` yields the stuck-at-0 ranking `["A", "0"]` — the sentinel key
`"0"` appears in every ranking list even though no counted wire is named
`"0"`, so the list does not consist solely of report wires ordered by count. -/
theorem C6_counterexample :
    get_faults [] "A /0: *" = some (["A", "0"], ["0"]) ∧
    "0" ∉ polWires [] "/0:" (linesOf "A /0: *") :=
  ⟨rfl, by decide⟩

/-- C6 (amended): for a fault report whose scanned lines are all processable
(header, output line, or at least three whitespace tokens) and which counts
no wire literally named `"0"`, `get_faults` returns, for each polarity, the
keys of the count dict sorted stably by count descending; each list holds
exactly the sentinel `"0"` plus the wires with at least one undetected (`*`)
line of that polarity — output lines and unstarred lines contribute
nothing — without duplicates, ordered by descending undetected count
(a strictly larger count strictly earlier, so a wire counted 5 times
precedes one counted 3 times), ties kept in first-appearance order, and the
sentinel (count `-1`) only at the very end. -/
theorem C6_ranking_characterised (outputs : List String) (faults : String)
    (hok : ∀ l ∈ scannedLines (linesOf faults), LineOk outputs l)
    (h0z : "0" ∉ polWires outputs "/0:" (linesOf faults))
    (h0o : "0" ∉ polWires outputs "/1:" (linesOf faults)) :
    get_faults outputs faults =
      some (rankList (polWires outputs "/0:" (linesOf faults)),
            rankList (polWires outputs "/1:" (linesOf faults))) ∧
    RankSpec (polWires outputs "/0:" (linesOf faults)) ∧
    RankSpec (polWires outputs "/1:" (linesOf faults)) :=
  ⟨get_faults_factor outputs faults hok, rankSpec_of_notMem h0z, rankSpec_of_notMem h0o⟩

/-- Witness for C6 on a report with wire `A` undetected five times and `B`
three times at stuck-at-0, `C` once at stuck-at-1, one output line and one
detected line (both contributing nothing). -/
theorem C6_witness :
    (∀ l ∈ scannedLines (linesOf
      "A /0: *\nA /0: *\nA /0: *\nA /0: *\nA /0: *\nB /0: *\nB /0: *\nB /0: *\nC /1: *\nosig /0: *\nD /0: 0.95"),
      LineOk ["osig"] l) ∧
    ("0" ∉ polWires ["osig"] "/0:" (linesOf
      "A /0: *\nA /0: *\nA /0: *\nA /0: *\nA /0: *\nB /0: *\nB /0: *\nB /0: *\nC /1: *\nosig /0: *\nD /0: 0.95")) ∧
    ("0" ∉ polWires ["osig"] "/1:" (linesOf
      "A /0: *\nA /0: *\nA /0: *\nA /0: *\nA /0: *\nB /0: *\nB /0: *\nB /0: *\nC /1: *\nosig /0: *\nD /0: 0.95")) ∧
    (get_faults ["osig"]
      "A /0: *\nA /0: *\nA /0: *\nA /0: *\nA /0: *\nB /0: *\nB /0: *\nB /0: *\nC /1: *\nosig /0: *\nD /0: 0.95" =
      some (rankList (polWires ["osig"] "/0:" (linesOf
        "A /0: *\nA /0: *\nA /0: *\nA /0: *\nA /0: *\nB /0: *\nB /0: *\nB /0: *\nC /1: *\nosig /0: *\nD /0: 0.95")),
            rankList (polWires ["osig"] "/1:" (linesOf
        "A /0: *\nA /0: *\nA /0: *\nA /0: *\nA /0: *\nB /0: *\nB /0: *\nB /0: *\nC /1: *\nosig /0: *\nD /0: 0.95"))) ∧
    RankSpec (polWires ["osig"] "/0:" (linesOf
      "A /0: *\nA /0: *\nA /0: *\nA /0: *\nA /0: *\nB /0: *\nB /0: *\nB /0: *\nC /1: *\nosig /0: *\nD /0: 0.95")) ∧
    RankSpec (polWires ["osig"] "/1:" (linesOf
      "A /0: *\nA /0: *\nA /0: *\nA /0: *\nA /0: *\nB /0: *\nB /0: *\nB /0: *\nC /1: *\nosig /0: *\nD /0: 0.95"))) :=
  ⟨by decide, by decide, by decide,
    C6_ranking_characterised ["osig"]
      "A /0: *\nA /0: *\nA /0: *\nA /0: *\nA /0: *\nB /0: *\nB /0: *\nB /0: *\nC /1: *\nosig /0: *\nD /0: 0.95"
      (by decide) (by decide) (by decide)⟩

end LogicObf
